import Mathlib

/-!
Shallow embedding of the "Americano" doubles-scheduling core from
`src/app/page.tsx` (functions `makeKey`, `computeStats`, `partnerCoverage`,
`recommendRoundsPartner`, `generateFairRound` and its inner helpers
`matchScore`, `bestSplitForFour`), together with proofs settling the frozen
claims about it.

Modelling conventions:
* JavaScript strings are `String`; JS string `<` (code-unit lexicographic
  comparison) is Lean's `String` `<` — identical on the identifiers in play.
* JS numbers are modelled exactly: all quantities the code manipulates are
  integers or quarter-integers far below 2^52, for which binary floating
  point arithmetic and comparisons are exact; counters live in `ℤ` and the
  quarter-integer match score is stored scaled by 4 in `ℤ` (an
  order-isomorphic encoding; `matchScoreJS` is the literal formula).  The single exception is `undefined + 1 = NaN` produced
  by `gamesPlayed[id] += 1` on a missing key: a games-played value is
  modelled as `Option ℤ` with `none` standing for NaN.
* A JS object used as a string-keyed record is an association list in
  insertion order (`Rec`); `recGet`/`recSet` are property lookup/update,
  which is exactly JS semantics for these string keys.
* `Math.round(x)` for `x ≥ 0` is round-half-up, computed exactly;
  `Math.ceil(a / b)` for positive integers is exact ceiling division.
* The nondeterministic shuffle `[...players].sort(() => Math.random() - 0.5)`
  always returns some permutation of `players`; `generateFairRound` takes
  that permutation (`shuffled`) as an explicit argument and the theorems
  quantify over all permutations.
* `Array.prototype.sort` is stable (ES2019), so the games-played ranking is
  a stable sort, modelled with `List.insertionSort` (stable), and the
  three-way split sort in `bestSplitForFour` likewise.
-/

namespace Americano

/-- `type Player = { id: string; name: string }` -/
structure Player where
  id : String
  name : String
deriving DecidableEq, Repr

/-- `type Match = { court: number; teamA: Player[]; teamB: Player[] }`.
Teams always have exactly two members everywhere the core reads them
(`teamA[0]`, `teamA[1]`), so a team is a `Player × Player`.  Court numbers
assigned by the generator are the positive loop indices `1, 2, …`. -/
structure Match where
  court : Nat
  teamA : Player × Player
  teamB : Player × Player
deriving DecidableEq, Repr

/-- `type SavedRound`.  Of its fields (`id`, `createdAt`, `courts`,
`matches`, `results`) the scheduler core reads only `matches`; the others
are omitted from the embedding. -/
structure SavedRound where
  matches' : List Match
deriving DecidableEq, Repr

/-- A JS object used as a string-keyed record, in property-insertion order. -/
abbrev Rec (α : Type) := List (String × α)

/-- JS property read `m[k]` (`undefined` = `none`). -/
def recGet {α : Type} (m : Rec α) (k : String) : Option α :=
  match m with
  | [] => none
  | (k', v') :: rest => if k' = k then some v' else recGet rest k

/-- JS property write `m[k] = v`: overwrite in place, else append. -/
def recSet {α : Type} (m : Rec α) (k : String) (v : α) : Rec α :=
  match m with
  | [] => [(k, v)]
  | (k', v') :: rest => if k' = k then (k, v) :: rest else (k', v') :: recSet rest k v

/-- `m[k] ?? d` -/
def recGetD {α : Type} (m : Rec α) (k : String) (d : α) : α :=
  (recGet m k).getD d

/-- `function makeKey(a, b) { return a < b ? a+"__"+b : b+"__"+a; }`.
JS string `<` is lexicographic comparison; the test is spelled on the
character lists (`String.lt_iff_toList_lt`) so that proofs can evaluate it
— `makeKey_eq_lt` below shows this is the literal source expression. -/
def makeKey (a b : String) : String :=
  if a.data < b.data then a ++ "__" ++ b else b ++ "__" ++ a

/-- The stats snapshot produced by `computeStats`.  A games-played value is
`Option ℤ`: `none` models the JS `NaN` that `gamesPlayed[id] += 1` creates
when `id` was not initialised (only non-roster identifiers). -/
structure Stats where
  gamesPlayed : Rec (Option Int)
  partnerCount : Rec Int
  opponentCount : Rec Int
deriving DecidableEq, Repr

/-- The value `gamesPlayed[k] + 1` in JS: a present numeric value is
incremented; `undefined + 1` and `NaN + 1` are `NaN` (`none`). -/
def incrVal (o : Option (Option Int)) : Option Int :=
  match o with
  | some (some v) => some (v + 1)
  | _ => none

/-- `gamesPlayed[k] += 1`: on a present numeric value, increment; on a
missing key, `undefined + 1 = NaN` creates a NaN entry; NaN stays NaN. -/
def incrGames (m : Rec (Option Int)) (k : String) : Rec (Option Int) :=
  recSet m k (incrVal (recGet m k))

/-- Invariant of the games-played record while `computeStats` walks the
history: roster identifiers hold the number of processed match slots naming
them; any other key is present (with NaN) exactly when processed. -/
def gpInv (players : List Player) (g : Rec (Option Int)) (done : List String) : Prop :=
  (∀ p ∈ players, recGet g p.id = some (some ((done.count p.id : Nat) : Int)))
  ∧ (∀ k : String, k ∉ players.map Player.id →
      recGet g k = if k ∈ done then some none else none)
  ∧ (∀ e ∈ g, e.1 ∈ players.map Player.id ∨ e.2 = none)

/-- `m[k] = (m[k] ?? 0) + 1` -/
def incrPair (m : Rec Int) (k : String) : Rec Int :=
  recSet m k (recGetD m k 0 + 1)

/-- The body of `computeStats`' inner loop for one match `m`. -/
def statsAddMatch (st : Stats) (m : Match) : Stats :=
  let a1 := m.teamA.1.id
  let a2 := m.teamA.2.id
  let b1 := m.teamB.1.id
  let b2 := m.teamB.2.id
  { gamesPlayed :=
      incrGames (incrGames (incrGames (incrGames st.gamesPlayed a1) a2) b1) b2
    partnerCount :=
      incrPair (incrPair st.partnerCount (makeKey a1 a2)) (makeKey b1 b2)
    opponentCount :=
      incrPair (incrPair (incrPair (incrPair st.opponentCount
        (makeKey a1 b1)) (makeKey a1 b2)) (makeKey a2 b1)) (makeKey a2 b2) }

/-- `function computeStats(players, savedRounds)` -/
def computeStats (players : List Player) (savedRounds : List SavedRound) : Stats :=
  let init : Stats :=
    { gamesPlayed := players.foldl (fun m p => recSet m p.id (some 0)) []
      partnerCount := []
      opponentCount := [] }
  savedRounds.foldl (fun st r => r.matches'.foldl statsAddMatch st) init

/-- JS `Set.add` on a set of strings, in insertion order. -/
def insertUniq (s : List String) (k : String) : List String :=
  if k ∈ s then s else s ++ [k]

/-- The `seenPairs` set accumulated by `partnerCoverage`. -/
def seenPairsOf (savedRounds : List SavedRound) : List String :=
  savedRounds.foldl
    (fun s r => r.matches'.foldl
      (fun s m =>
        insertUniq (insertUniq s (makeKey m.teamA.1.id m.teamA.2.id))
          (makeKey m.teamB.1.id m.teamB.2.id))
      s)
    []

structure Coverage where
  complete : Bool
  percent : Int
  missingPairs : Int
  totalPairs : Int
deriving DecidableEq, Repr

/-- `Math.round((done / totalPairs) * 100)` for `done, total ≥ 0`,
computed exactly: round-half-up of `100*done/total`. -/
def jsRound100 (done total : Int) : Int :=
  (200 * done + total) / (2 * total)

/-- `function partnerCoverage(players, savedRounds)` -/
def partnerCoverage (players : List Player) (savedRounds : List SavedRound) : Coverage :=
  let n := players.length
  if n ≤ 1 then ⟨true, 100, 0, 0⟩
  else
    let totalPairs : Int := ((n : Int) * ((n : Int) - 1)) / 2
    let done : Int := (seenPairsOf savedRounds).length
    let percent := max 0 (min 100 (jsRound100 done totalPairs))
    ⟨decide (totalPairs ≤ done), percent, max 0 (totalPairs - done), totalPairs⟩

/-- `function recommendRoundsPartner(playerCount, courts)` -/
def recommendRoundsPartner (playerCount : Nat) (courts : Int) : Int :=
  if playerCount < 4 then 0
  else
    let f : Int := ((playerCount / 4 : Nat) : Int)
    let f : Int := if f = 0 then 1 else f      -- the `|| 1` in the source
    let c : Int := max 1 (min courts f)
    let num : Int := (playerCount : Int) * ((playerCount : Int) - 1)
    let den : Int := 4 * c
    max 1 ((num + den - 1) / den)              -- `Math.ceil(num / den)`, exact

/-- `gamesPlayed[x] ?? 0`.  For roster identifiers — the only ones the
generator ever queries — the stored value is always numeric (`some v`), so
collapsing the unreachable NaN case to `0` is faithful. -/
def gpOf (st : Stats) (x : String) : Int :=
  match recGet st.gamesPlayed x with
  | some (some v) => v
  | _ => 0

/-- `partnerCount[makeKey(x,y)] ?? 0` -/
def partnerOf (st : Stats) (x y : String) : Int :=
  recGetD st.partnerCount (makeKey x y) 0

/-- `opponentCount[makeKey(x,y)] ?? 0` -/
def oppOf (st : Stats) (x y : String) : Int :=
  recGetD st.opponentCount (makeKey x y) 0

/-- `function matchScore(a, b, c, d)` — team (a,b) versus team (c,d) —
scaled by 4 to stay in `ℤ`: the JS score `14·p + 3·o − 0.25·g` is a
quarter-integer computed exactly in binary floating point, so comparisons
agree with exact arithmetic, and scaling by the positive constant 4
preserves every comparison; `matchScore_eq_scaled` below relates this to
the literal source formula `matchScoreJS`. -/
def matchScore (st : Stats) (a b c d : Player) : Int :=
  56 * partnerOf st a.id b.id + 56 * partnerOf st c.id d.id
    + 12 * (oppOf st a.id c.id + oppOf st a.id d.id
        + oppOf st b.id c.id + oppOf st b.id d.id)
    - (gpOf st a.id + gpOf st b.id + gpOf st c.id + gpOf st d.id)

/-- The literal source cost
`14·partner(a,b) + 14·partner(c,d) + 3·Σopponents − 0.25·Σgames`. -/
def matchScoreJS (st : Stats) (a b c d : Player) : ℚ :=
  14 * (partnerOf st a.id b.id : ℚ) + 14 * (partnerOf st c.id d.id : ℚ)
    + 3 * ((oppOf st a.id c.id : ℚ) + (oppOf st a.id d.id : ℚ)
        + (oppOf st b.id c.id : ℚ) + (oppOf st b.id d.id : ℚ))
    - (1 / 4 : ℚ) * ((gpOf st a.id : ℚ) + (gpOf st b.id : ℚ)
        + (gpOf st c.id : ℚ) + (gpOf st d.id : ℚ))

/-- One entry of the `options` array built by `bestSplitForFour`:
a team split `(a,b)` versus `(c,d)` together with its score. -/
structure SplitOption where
  a : Player
  b : Player
  c : Player
  d : Player
  score : Int
deriving DecidableEq, Repr

/-- The `options` array of `bestSplitForFour(p, q, r, s)`, in source order. -/
def splitOptions (st : Stats) (p q r s : Player) : List SplitOption :=
  [⟨p, q, r, s, matchScore st p q r s⟩,
   ⟨p, r, q, s, matchScore st p r q s⟩,
   ⟨p, s, q, r, matchScore st p s q r⟩]

/-- `function bestSplitForFour(p, q, r, s)`: stable-sort the three options
by score (`options.sort((x,y) => x.score - y.score)`, a stable sort) and
take `options[0]`.  The default of `headD` is unreachable (the sorted list
has three elements). -/
def bestSplitForFour (st : Stats) (p q r s : Player) : SplitOption :=
  (List.insertionSort (fun x y : SplitOption => x.score ≤ y.score)
      (splitOptions st p q r s)).headD ⟨p, q, r, s, matchScore st p q r s⟩

/-- All index pairs `i < j` of a pool, in the generator's loop order. -/
def combs2 : List Player → List (Player × Player)
  | [] => []
  | x :: xs => (xs.map fun y => (x, y)) ++ combs2 xs

/-- All index triples `i < j < k` of a pool, in the generator's loop order. -/
def combs3 : List Player → List (Player × Player × Player)
  | [] => []
  | x :: xs => ((combs2 xs).map fun yz => (x, yz.1, yz.2)) ++ combs3 xs

/-- All index quadruples `i < j < k < l` of a pool: exactly the enumeration
order of the generator's four nested loops over `remaining`. -/
def combs4 : List Player → List (Player × Player × Player × Player)
  | [] => []
  | x :: xs => ((combs3 xs).map fun t => (x, t.1, t.2.1, t.2.2)) ++ combs4 xs

/-- The generator's `best` record: the chosen four-player `group` and its
best `split`. -/
structure BestChoice where
  group : Player × Player × Player × Player
  split : SplitOption
deriving DecidableEq, Repr

/-- Evaluate one combination: `group` plus `bestSplitForFour` on it. -/
def evalComb (st : Stats) (g : Player × Player × Player × Player) : BestChoice :=
  ⟨g, bestSplitForFour st g.1 g.2.1 g.2.2.1 g.2.2.2⟩

/-- The body of the generator's inner loop:
`if (!best || split.score < best.score) best = {group, split, score}`. -/
def chooseStep (st : Stats) (best : Option BestChoice)
    (g : Player × Player × Player × Player) : Option BestChoice :=
  let cand := evalComb st g
  match best with
  | none => some cand
  | some b => if cand.split.score < b.split.score then some cand else some b

/-- The four nested `for` loops over `remaining`, folding `chooseStep`. -/
def chooseBest (st : Stats) (remaining : List Player) : Option BestChoice :=
  (combs4 remaining).foldl (chooseStep st) none

/-- Every (combination × split) candidate for a court, flattened in
combination-then-split enumeration order. -/
def candidates (st : Stats) (remaining : List Player) : List SplitOption :=
  (combs4 remaining).flatMap fun g => splitOptions st g.1 g.2.1 g.2.2.1 g.2.2.2

/-- The four player identifiers of a match, in team order. -/
def matchIds (m : Match) : List String :=
  [m.teamA.1.id, m.teamA.2.id, m.teamB.1.id, m.teamB.2.id]

/-- The court loop of `generateFairRound` (`for court = 1..courts`): pick
the best candidate, splice the chosen group's ids out of the pool, emit the
match, continue on the next court. -/
def genLoop (st : Stats) : Nat → Nat → List Player → List Match
  | _, 0, _ => []
  | court, fuel + 1, remaining =>
    if remaining.length < 4 then []
    else
      match chooseBest st remaining with
      | none => []
      | some best =>
        let chosen := [best.group.1.id, best.group.2.1.id,
                       best.group.2.2.1.id, best.group.2.2.2.id]
        let remaining2 := remaining.filter fun x => ! chosen.contains x.id
        { court := court
          teamA := (best.split.a, best.split.b)
          teamB := (best.split.c, best.split.d) }
          :: genLoop st (court + 1) fuel remaining2

/-- The stable sort of the shuffled roster by ascending games played
(`shuffled.sort((a, b) => gamesPlayed[a.id] - gamesPlayed[b.id])`,
a stable sort per ES2019). -/
def sortByGames (st : Stats) (l : List Player) : List Player :=
  List.insertionSort (fun a b => gpOf st a.id ≤ gpOf st b.id) l

structure RoundResult where
  matches' : List Match
  bench : List Player
deriving DecidableEq, Repr

/-- The number of courts actually used:
`Math.max(0, Math.min(courtsWanted, Math.floor(n / 4)))`. -/
def usedCourts (players : List Player) (courtsWanted : Int) : Nat :=
  (max 0 (min courtsWanted ((players.length / 4 : Nat) : Int))).toNat

/-- The active players of the round: the first `usedCourts * 4` of the
games-played ranking. -/
def activePlayers (players : List Player) (courtsWanted : Int)
    (savedRounds : List SavedRound) (shuffled : List Player) : List Player :=
  (sortByGames (computeStats players savedRounds) shuffled).take
    (usedCourts players courtsWanted * 4)

/-- `function generateFairRound({players, courtsWanted, savedRounds})`.
`shuffled` is the outcome of the random tie-break shuffle
`[...players].sort(() => Math.random() - 0.5)` — an arbitrary permutation
of `players`, over which all theorems quantify. -/
def generateFairRound (players : List Player) (courtsWanted : Int)
    (savedRounds : List SavedRound) (shuffled : List Player) : RoundResult :=
  let courts := usedCourts players courtsWanted
  let slots := courts * 4
  let st := computeStats players savedRounds
  let byGames := sortByGames st shuffled
  { matches' := genLoop st 1 courts (byGames.take slots)
    bench := byGames.drop slots }

/-- The leftmost element of `b :: l` attaining the minimum of `f`. -/
def firstMinAux {α : Type} (f : α → Int) (b : α) (l : List α) : α :=
  l.foldl (fun b x => if f x < f b then x else b) b

/-! ### Concrete instances used in witnesses and counterexamples -/

def w5Players : List Player :=
  [⟨"a", "a"⟩, ⟨"b", "b"⟩, ⟨"c", "c"⟩, ⟨"d", "d"⟩, ⟨"e", "e"⟩]

def w5Shuffled : List Player :=
  [⟨"e", "e"⟩, ⟨"d", "d"⟩, ⟨"c", "c"⟩, ⟨"b", "b"⟩, ⟨"a", "a"⟩]

/-- The four-player roster `[A, B, C, D]` of the spec's concrete scenario. -/
def c8Players : List Player :=
  [⟨"a", "A"⟩, ⟨"b", "B"⟩, ⟨"c", "C"⟩, ⟨"d", "D"⟩]

def c9Roster : List Player := [⟨"P", "P"⟩]

/-- One history round whose match mentions roster player `P` and three
removed players `Q`, `R`, `S`. -/
def c9Round : SavedRound :=
  ⟨[⟨1, (⟨"P", "P"⟩, ⟨"Q", "Q"⟩), (⟨"R", "R"⟩, ⟨"S", "S"⟩)⟩]⟩

/-- 21 single-letter identifiers. -/
def c10Ids : List String := "abcdefghijklmnopqrstu".data.map fun ch => String.mk [ch]

def c10Players : List Player := c10Ids.map fun i => ⟨i, i⟩

/-- All `C(21,2) = 210` unordered identifier pairs, in index order. -/
def c10Pairs : List (String × String) :=
  (List.range 21).flatMap fun i =>
    (List.range' (i + 1) (20 - i)).map fun j => (c10Ids.getD i "a", c10Ids.getD j "a")

/-- The first `209` of those pairs. -/
def c10Seen : List (String × String) := c10Pairs.dropLast

def pairsToMatch (pq rs : String × String) (court : Nat) : Match :=
  ⟨court, (⟨pq.1, pq.1⟩, ⟨pq.2, pq.2⟩), (⟨rs.1, rs.1⟩, ⟨rs.2, rs.2⟩)⟩

/-- A synthetic round of 105 matches whose teams cover exactly 209 of the
210 pairs (the out-of-range final index falls back to the first pair). -/
def c10Round : SavedRound :=
  ⟨(List.range 105).map fun t =>
    pairsToMatch (c10Seen.getD (2 * t) ("a", "b"))
      (c10Seen.getD (2 * t + 1) ("a", "b")) (t + 1)⟩

/-- The two team pair-keys a match contributes to `partnerCount`. -/
def teamKeys (m : Match) : List String :=
  [makeKey m.teamA.1.id m.teamA.2.id, makeKey m.teamB.1.id m.teamB.2.id]

/-- The four cross-team pair-keys a match contributes to `opponentCount`. -/
def crossKeys (m : Match) : List String :=
  [makeKey m.teamA.1.id m.teamB.1.id, makeKey m.teamA.1.id m.teamB.2.id,
   makeKey m.teamA.2.id m.teamB.1.id, makeKey m.teamA.2.id m.teamB.2.id]

/-- The team `t` is, as an unordered pair of identifiers, `{x, y}`. -/
def teamPair (t : Player × Player) (x y : String) : Prop :=
  (t.1.id = x ∧ t.2.id = y) ∨ (t.1.id = y ∧ t.2.id = x)

instance (t : Player × Player) (x y : String) : Decidable (teamPair t x y) := by
  unfold teamPair
  infer_instance

/-- Some team of match `m` is the pair `{x, y}`. -/
def hasTeam (m : Match) (x y : String) : Prop :=
  teamPair m.teamA x y ∨ teamPair m.teamB x y

instance (m : Match) (x y : String) : Decidable (hasTeam m x y) := by
  unfold hasTeam
  infer_instance

def c3Players : List Player :=
  [⟨"a", "a"⟩, ⟨"b", "b"⟩, ⟨"c", "c"⟩, ⟨"d", "d"⟩,
   ⟨"e", "e"⟩, ⟨"f", "f"⟩, ⟨"g", "g"⟩, ⟨"h", "h"⟩]

def c3Round : SavedRound :=
  ⟨[⟨1, (⟨"a", "a"⟩, ⟨"b", "b"⟩), (⟨"c", "c"⟩, ⟨"d", "d"⟩)⟩,
    ⟨2, (⟨"e", "e"⟩, ⟨"f", "f"⟩), (⟨"g", "g"⟩, ⟨"h", "h"⟩)⟩]⟩

/-! ### Pair-key lemmas -/

/-- Splitting around the `"__"` separator is unique when the left parts are
underscore-free. -/
theorem sep_split : ∀ (a c b d : List Char), '_' ∉ a → '_' ∉ c →
    a ++ '_' :: '_' :: b = c ++ '_' :: '_' :: d → a = c ∧ b = d := by
  intro a
  induction a with
  | nil =>
    intro c b d _ hc h
    cases c with
    | nil => simpa using h
    | cons x xs =>
      simp only [List.nil_append, List.cons_append, List.cons.injEq] at h
      exact absurd (h.1 ▸ List.mem_cons_self x xs) hc
  | cons x xs ih =>
    intro c b d ha hc h
    cases c with
    | nil =>
      simp only [List.nil_append, List.cons_append, List.cons.injEq] at h
      exact absurd (h.1 ▸ List.mem_cons_self x xs) ha
    | cons y ys =>
      simp only [List.cons_append, List.cons.injEq] at h
      have := ih ys b d (fun hm => ha (List.mem_cons_of_mem x hm))
        (fun hm => hc (h.1 ▸ List.mem_cons_of_mem y hm)) h.2
      exact ⟨by rw [h.1, this.1], this.2⟩

/-- `makeKey` is the literal source expression `a < b ? a+"__"+b : b+"__"+a`
with JS string comparison: `String` `<` is comparison of character lists. -/
theorem makeKey_eq_lt (a b : String) :
    makeKey a b = if a < b then a ++ "__" ++ b else b ++ "__" ++ a := by
  unfold makeKey
  by_cases h : a.data < b.data
  · rw [if_pos h, if_pos (String.lt_iff_toList_lt.mpr h)]
  · rw [if_neg h, if_neg (fun hx => h (String.lt_iff_toList_lt.mp hx))]

/-- `makeKey` produces one of the two sorted concatenations. -/
theorem makeKey_cases (a b : String) :
    makeKey a b = a ++ "__" ++ b ∨ makeKey a b = b ++ "__" ++ a := by
  unfold makeKey
  split
  · exact Or.inl rfl
  · exact Or.inr rfl

/-- `makeKey` is symmetric in its arguments, for all strings. -/
theorem makeKey_comm (a b : String) : makeKey a b = makeKey b a := by
  rw [makeKey_eq_lt, makeKey_eq_lt]
  rcases lt_trichotomy a b with h | h | h
  · rw [if_pos h, if_neg (not_lt.mpr h.le)]
  · subst h; rfl
  · rw [if_neg (not_lt.mpr h.le), if_pos h]

/-- A string has no underscore character. -/
def usFree (s : String) : Prop := '_' ∉ s.data

instance (s : String) : Decidable (usFree s) := by
  unfold usFree; infer_instance

theorem data_concat_sep (x y : String) :
    (x ++ "__" ++ y).data = x.data ++ '_' :: '_' :: y.data := by
  rw [String.data_append, String.data_append,
    show ("__" : String).data = ['_', '_'] from rfl]
  simp

/-- On underscore-free identifiers, equal pair keys force equal unordered
pairs. -/
theorem makeKey_inj {a b c d : String}
    (ha : usFree a) (hb : usFree b) (hc : usFree c) (hd : usFree d)
    (h : makeKey a b = makeKey c d) :
    (a = c ∧ b = d) ∨ (a = d ∧ b = c) := by
  have hsplit : ∀ x y u v : String, usFree x → usFree u →
      x ++ "__" ++ y = u ++ "__" ++ v → x = u ∧ y = v := by
    intro x y u v hx hu hxy
    have hdata : (x ++ "__" ++ y).data = (u ++ "__" ++ v).data := by rw [hxy]
    rw [data_concat_sep, data_concat_sep] at hdata
    have := sep_split x.data u.data y.data v.data hx hu hdata
    exact ⟨String.ext this.1, String.ext this.2⟩
  rcases makeKey_cases a b with hab | hab <;> rcases makeKey_cases c d with hcd | hcd
  · rw [hab, hcd] at h
    exact Or.inl ⟨(hsplit _ _ _ _ ha hc h).1, (hsplit _ _ _ _ ha hc h).2⟩
  · rw [hab, hcd] at h
    exact Or.inr ⟨(hsplit _ _ _ _ ha hd h).1, (hsplit _ _ _ _ ha hd h).2⟩
  · rw [hab, hcd] at h
    exact Or.inr ⟨(hsplit _ _ _ _ hb hc h).2, (hsplit _ _ _ _ hb hc h).1⟩
  · rw [hab, hcd] at h
    exact Or.inl ⟨(hsplit _ _ _ _ hb hd h).2, (hsplit _ _ _ _ hb hd h).1⟩

/-- Claim C6 as stated is false: with identifiers that contain the `"__"`
separator, two different unordered pairs can share a key.  At
`a = "_z_"`, `b = "z_"`, `c = "_z"` (all pairwise distinct) we get
`makeKey a b = "_z___z_" = makeKey a c` although `b ≠ c`. -/
theorem makeKey_collision_counterexample :
    makeKey "_z_" "z_" = makeKey "_z_" "_z"
      ∧ ("_z_" : String) ≠ "z_" ∧ ("z_" : String) ≠ "_z" := by
  refine ⟨?_, by decide, by decide⟩
  decide

/-- Claim C6, amended: `makeKey` is symmetric for all identifiers, and on
identifiers free of the separator character `'_'` (the spec's own
precondition: "a separator guaranteed not to occur inside an identifier")
distinct unordered pairs get distinct keys. -/
theorem makeKey_symm_inj (a b c : String)
    (ha : usFree a) (hb : usFree b) (hc : usFree c)
    (hab : a ≠ b) (hbc : b ≠ c) :
    makeKey a b = makeKey b a ∧ makeKey a b ≠ makeKey a c := by
  refine ⟨makeKey_comm a b, fun h => ?_⟩
  rcases makeKey_inj ha hb ha hc h with ⟨-, h2⟩ | ⟨-, h2⟩
  · exact hbc h2
  · exact hab h2.symm

theorem matchScore_eq_scaled (st : Stats) (a b c d : Player) :
    (matchScore st a b c d : ℚ) = 4 * matchScoreJS st a b c d := by
  unfold matchScore matchScoreJS
  push_cast
  ring

/-! ### First-minimum selection machinery

The generator's fold `if (split.score < best.score) best = …` keeps the
first strict minimum; these lemmas characterise it. -/

theorem firstMinAux_nil {α : Type} (f : α → Int) (b : α) :
    firstMinAux f b [] = b := rfl

theorem firstMinAux_cons {α : Type} (f : α → Int) (b x : α) (l : List α) :
    firstMinAux f b (x :: l) = firstMinAux f (if f x < f b then x else b) l := rfl

theorem firstMinAux_append {α : Type} (f : α → Int) (b : α) (l1 l2 : List α) :
    firstMinAux f b (l1 ++ l2) = firstMinAux f (firstMinAux f b l1) l2 :=
  List.foldl_append _ _ l1 l2

/-- `firstMinAux f b l` is the first minimum of `b :: l`: it occurs in the
list, everything strictly before it is strictly larger, and it is a global
minimum. -/
theorem firstMinAux_spec {α : Type} (f : α → Int) :
    ∀ (l : List α) (b : α), ∃ l1 l2,
      b :: l = l1 ++ firstMinAux f b l :: l2
      ∧ (∀ c ∈ l1, f (firstMinAux f b l) < f c)
      ∧ ∀ c ∈ b :: l, f (firstMinAux f b l) ≤ f c := by
  intro l
  induction l with
  | nil =>
    intro b
    exact ⟨[], [], rfl, by simp, by simp [firstMinAux_nil]⟩
  | cons x xs ih =>
    intro b
    rw [firstMinAux_cons]
    by_cases hx : f x < f b
    · rw [if_pos hx]
      obtain ⟨l1, l2, hdec, hlt, hmin⟩ := ih x
      refine ⟨b :: l1, l2, by rw [List.cons_append, ← hdec], ?_, ?_⟩
      · intro c hc
        rcases List.mem_cons.mp hc with rfl | hc
        · exact lt_of_le_of_lt (hmin x (List.mem_cons_self _ _)) hx
        · exact hlt c hc
      · intro c hc
        rcases List.mem_cons.mp hc with rfl | hc
        · exact le_of_lt (lt_of_le_of_lt (hmin x (List.mem_cons_self _ _)) hx)
        · exact hmin c hc
    · rw [if_neg hx]
      obtain ⟨l1, l2, hdec, hlt, hmin⟩ := ih b
      cases l1 with
      | nil =>
        simp only [List.nil_append, List.cons.injEq] at hdec
        refine ⟨[], x :: xs, ?_, by simp, ?_⟩
        · rw [List.nil_append, ← hdec.1]
        · intro c hc
          rcases List.mem_cons.mp hc with rfl | hc
          · rw [← hdec.1]
          · rcases List.mem_cons.mp hc with rfl | hc
            · rw [← hdec.1]; exact not_lt.mp hx
            · exact hmin c (List.mem_cons_of_mem b hc)
      | cons y t =>
        simp only [List.cons_append, List.cons.injEq] at hdec
        refine ⟨b :: x :: t, l2, ?_, ?_, ?_⟩
        · rw [List.cons_append, List.cons_append]
          exact congrArg (List.cons b) (congrArg (List.cons x) hdec.2)
        · intro c hc
          have hfb : f (firstMinAux f b xs) < f b := by
            have := hlt y (List.mem_cons_self y t)
            rwa [← hdec.1] at this
          rcases List.mem_cons.mp hc with rfl | hc
          · exact hfb
          · rcases List.mem_cons.mp hc with rfl | hc
            · exact lt_of_lt_of_le hfb (not_lt.mp hx)
            · exact hlt c (List.mem_cons_of_mem y hc)
        · intro c hc
          rcases List.mem_cons.mp hc with rfl | hc
          · exact hmin c (List.mem_cons_self _ _)
          · rcases List.mem_cons.mp hc with rfl | hc
            · exact le_trans (hmin b (List.mem_cons_self _ _)) (not_lt.mp hx)
            · exact hmin c (List.mem_cons_of_mem b hc)

theorem firstMinAux_mem {α : Type} (f : α → Int) (b : α) (l : List α) :
    firstMinAux f b l ∈ b :: l := by
  obtain ⟨l1, l2, hdec, -, -⟩ := firstMinAux_spec f l b
  rw [hdec]
  exact List.mem_append_right l1 (List.mem_cons_self _ _)

theorem firstMinAux_le {α : Type} (f : α → Int) (b : α) (l : List α) :
    ∀ c ∈ b :: l, f (firstMinAux f b l) ≤ f c := by
  obtain ⟨-, -, -, -, hmin⟩ := firstMinAux_spec f l b
  exact hmin

/-- `find?` on the "is a global minimum of `L`" predicate returns the first
element of `t ++ m :: l2` that is a minimum, provided everything in `t` is
strictly larger than the minimum `m`. -/
theorem find?_first_min {α : Type} (f : α → Int) :
    ∀ (t l2 : List α) (m : α) (L : List α), m ∈ L →
      (∀ c ∈ t, f m < f c) → (∀ c ∈ L, f m ≤ f c) →
      (t ++ m :: l2).find? (fun c => L.all fun c2 => decide (f c ≤ f c2)) = some m := by
  intro t
  induction t with
  | nil =>
    intro l2 m L hmem hlt hmin
    rw [List.nil_append]
    apply List.find?_cons_of_pos
    rw [List.all_eq_true]
    intro c hc
    exact decide_eq_true (hmin c hc)
  | cons y t ih =>
    intro l2 m L hmem hlt hmin
    rw [List.cons_append]
    rw [List.find?_cons_of_neg]
    · exact ih l2 m L hmem (fun c hc => hlt c (List.mem_cons_of_mem y hc)) hmin
    · intro h
      rw [List.all_eq_true] at h
      have hym := of_decide_eq_true (h m hmem)
      exact absurd hym (not_le.mpr (hlt y (List.mem_cons_self y t)))

theorem makeKey_symm_inj_witness :
    usFree "a" ∧ usFree "b" ∧ usFree "c" ∧ ("a" : String) ≠ "b"
      ∧ ("b" : String) ≠ "c"
      ∧ (makeKey "a" "b" = makeKey "b" "a" ∧ makeKey "a" "b" ≠ makeKey "a" "c") :=
  ⟨by decide, by decide, by decide, by decide, by decide,
    makeKey_symm_inj "a" "b" "c" (by decide) (by decide) (by decide)
      (by decide) (by decide)⟩

/-! ### The per-court selection picks the first cost-minimal candidate -/

/-- The head of the stable three-element sort is the first score-minimal
element. -/
theorem sortHead3 (x y z d : SplitOption) :
    ((List.insertionSort (fun a b : SplitOption => a.score ≤ b.score)
        [x, y, z]).headD d) = firstMinAux SplitOption.score x [y, z] := by
  have hfm : firstMinAux SplitOption.score x [y, z] =
      if z.score < (if y.score < x.score then y else x).score then z
      else if y.score < x.score then y else x := rfl
  rw [hfm]
  by_cases h1 : y.score ≤ z.score
  · by_cases h2 : x.score ≤ y.score
    · rw [show List.insertionSort (fun a b : SplitOption => a.score ≤ b.score)
          [x, y, z] = [x, y, z] from by
        simp [List.insertionSort, List.orderedInsert, h1, h2]]
      rw [List.headD_cons]
      split_ifs <;> first | rfl | linarith
    · by_cases h3 : x.score ≤ z.score
      · rw [show List.insertionSort (fun a b : SplitOption => a.score ≤ b.score)
            [x, y, z] = [y, x, z] from by
          simp [List.insertionSort, List.orderedInsert, h1, h2, h3]]
        rw [List.headD_cons]
        split_ifs <;> first | rfl | linarith
      · rw [show List.insertionSort (fun a b : SplitOption => a.score ≤ b.score)
            [x, y, z] = [y, z, x] from by
          simp [List.insertionSort, List.orderedInsert, h1, h2, h3]]
        rw [List.headD_cons]
        split_ifs <;> first | rfl | linarith
  · by_cases h2 : x.score ≤ z.score
    · rw [show List.insertionSort (fun a b : SplitOption => a.score ≤ b.score)
          [x, y, z] = [x, z, y] from by
        simp [List.insertionSort, List.orderedInsert, h1, h2]]
      rw [List.headD_cons]
      split_ifs <;> first | rfl | linarith
    · by_cases h3 : x.score ≤ y.score
      · rw [show List.insertionSort (fun a b : SplitOption => a.score ≤ b.score)
            [x, y, z] = [z, x, y] from by
          simp [List.insertionSort, List.orderedInsert, h1, h2, h3]]
        rw [List.headD_cons]
        split_ifs <;> first | rfl | linarith
      · rw [show List.insertionSort (fun a b : SplitOption => a.score ≤ b.score)
            [x, y, z] = [z, y, x] from by
          simp [List.insertionSort, List.orderedInsert, h1, h2, h3]]
        rw [List.headD_cons]
        split_ifs <;> first | rfl | linarith

/-- `bestSplitForFour` — head of the stable sort of the three options — is
the first score-minimal option. -/
theorem bestSplitForFour_eq (st : Stats) (p q r s : Player) :
    bestSplitForFour st p q r s =
      firstMinAux SplitOption.score
        ⟨p, q, r, s, matchScore st p q r s⟩
        [⟨p, r, q, s, matchScore st p r q s⟩, ⟨p, s, q, r, matchScore st p s q r⟩] := by
  unfold bestSplitForFour splitOptions
  exact sortHead3 _ _ _ _

theorem chooseStep_some (st : Stats) (b : BestChoice)
    (g : Player × Player × Player × Player) :
    chooseStep st (some b) g =
      some (if (evalComb st g).split.score < b.split.score then evalComb st g else b) := by
  show (if (evalComb st g).split.score < b.split.score
      then some (evalComb st g) else some b) = _
  split_ifs <;> rfl

theorem foldl_chooseStep (st : Stats) :
    ∀ (gs : List (Player × Player × Player × Player)) (b : BestChoice),
      gs.foldl (chooseStep st) (some b) =
        some (firstMinAux (fun bc => bc.split.score) b (gs.map (evalComb st))) := by
  intro gs
  induction gs with
  | nil => intro b; rfl
  | cons g gs ih =>
    intro b
    rw [List.foldl_cons, chooseStep_some, List.map_cons, firstMinAux_cons]
    exact ih _

/-- `chooseBest` is the first minimum over the evaluated combinations. -/
theorem chooseBest_eq (st : Stats) (remaining : List Player) :
    chooseBest st remaining =
      match combs4 remaining with
      | [] => none
      | g :: gs =>
        some (firstMinAux (fun bc => bc.split.score) (evalComb st g)
          (gs.map (evalComb st))) := by
  unfold chooseBest
  cases h : combs4 remaining with
  | nil => rfl
  | cons g gs =>
    rw [List.foldl_cons]
    rw [show chooseStep st none g = some (evalComb st g) from rfl]
    exact foldl_chooseStep st gs (evalComb st g)

theorem firstMinAux_head {α : Type} (f : α → Int) :
    ∀ (l : List α) (o b : α),
      firstMinAux f b (o :: l) =
        if f (firstMinAux f o l) < f b then firstMinAux f o l else b := by
  intro l
  induction l with
  | nil =>
    intro o b
    simp only [firstMinAux_cons, firstMinAux_nil]
  | cons x xs ih =>
    intro o b
    rw [firstMinAux_cons, ih x (if f o < f b then o else b), ih x o]
    split_ifs <;> first | rfl | linarith

theorem firstMinAux_map_split :
    ∀ (l : List BestChoice) (b : BestChoice),
      (firstMinAux (fun bc => bc.split.score) b l).split =
        firstMinAux SplitOption.score b.split (l.map BestChoice.split) := by
  intro l
  induction l with
  | nil => intro b; rfl
  | cons x xs ih =>
    intro b
    rw [firstMinAux_cons, List.map_cons, firstMinAux_cons, ih]
    congr 1
    split_ifs <;> rfl

theorem firstMinAux_flatMap (st : Stats) :
    ∀ (gs : List (Player × Player × Player × Player)) (b : SplitOption),
      firstMinAux SplitOption.score b
          (gs.flatMap fun g => splitOptions st g.1 g.2.1 g.2.2.1 g.2.2.2) =
        firstMinAux SplitOption.score b
          (gs.map fun g => bestSplitForFour st g.1 g.2.1 g.2.2.1 g.2.2.2) := by
  intro gs
  induction gs with
  | nil => intro b; rfl
  | cons g gs ih =>
    intro b
    rw [List.flatMap_cons, firstMinAux_append, ih, List.map_cons, firstMinAux_cons]
    congr 1
    rw [bestSplitForFour_eq]
    exact firstMinAux_head SplitOption.score _ _ b

/-- The split chosen by `chooseBest` is the first minimum of the flattened
candidate list. -/
theorem chooseBest_split (st : Stats) (remaining : List Player) :
    (chooseBest st remaining).map BestChoice.split =
      match candidates st remaining with
      | [] => none
      | o :: os => some (firstMinAux SplitOption.score o os) := by
  rw [chooseBest_eq]
  unfold candidates
  cases h : combs4 remaining with
  | nil => rfl
  | cons g gs =>
    rw [List.flatMap_cons]
    show some ((firstMinAux (fun bc => bc.split.score) (evalComb st g)
        (gs.map (evalComb st))).split) = _
    rw [firstMinAux_map_split, List.map_map]
    have hsplit : (BestChoice.split ∘ evalComb st) =
        fun g : Player × Player × Player × Player =>
          bestSplitForFour st g.1 g.2.1 g.2.2.1 g.2.2.2 := rfl
    rw [hsplit]
    have hopts : splitOptions st g.1 g.2.1 g.2.2.1 g.2.2.2
        ++ gs.flatMap (fun g => splitOptions st g.1 g.2.1 g.2.2.1 g.2.2.2) =
        (⟨g.1, g.2.1, g.2.2.1, g.2.2.2, matchScore st g.1 g.2.1 g.2.2.1 g.2.2.2⟩ : SplitOption)
          :: ([⟨g.1, g.2.2.1, g.2.1, g.2.2.2, matchScore st g.1 g.2.2.1 g.2.1 g.2.2.2⟩,
               ⟨g.1, g.2.2.2, g.2.1, g.2.2.1, matchScore st g.1 g.2.2.2 g.2.1 g.2.2.1⟩]
            ++ gs.flatMap (fun g => splitOptions st g.1 g.2.1 g.2.2.1 g.2.2.2)) := rfl
    rw [hopts]
    dsimp only
    rw [firstMinAux_append, ← bestSplitForFour_eq, firstMinAux_flatMap]
    rfl

theorem splitOptions_flat_length (st : Stats) :
    ∀ gs : List (Player × Player × Player × Player),
      (gs.flatMap fun g => splitOptions st g.1 g.2.1 g.2.2.1 g.2.2.2).length =
        3 * gs.length := by
  intro gs
  induction gs with
  | nil => rfl
  | cons g gs ih =>
    rw [List.flatMap_cons, List.length_append, ih, List.length_cons]
    show 3 + 3 * gs.length = 3 * (gs.length + 1)
    ring

theorem combs2_length : ∀ l : List Player, (combs2 l).length = Nat.choose l.length 2 := by
  intro l
  induction l with
  | nil => rfl
  | cons x xs ih =>
    rw [combs2, List.length_append, List.length_map, ih, List.length_cons,
      Nat.choose_succ_succ, Nat.choose_one_right]

theorem combs3_length : ∀ l : List Player, (combs3 l).length = Nat.choose l.length 3 := by
  intro l
  induction l with
  | nil => rfl
  | cons x xs ih =>
    rw [combs3, List.length_append, List.length_map, combs2_length, ih,
      List.length_cons, Nat.choose_succ_succ]

theorem combs4_length : ∀ l : List Player, (combs4 l).length = Nat.choose l.length 4 := by
  intro l
  induction l with
  | nil => rfl
  | cons x xs ih =>
    rw [combs4, List.length_append, List.length_map, combs3_length, ih,
      List.length_cons, Nat.choose_succ_succ]

/-- **Claim C1.**  For every stats snapshot and every remaining pool, the
candidate the generator selects for a court (the best group's best split)
is exactly the *first* candidate, in combination-then-split enumeration
order, that attains the minimum total cost
`14·partner(teamA) + 14·partner(teamB) + 3·Σopponents − 0.25·Σgames`
over all candidates; and the candidate list enumerates all
`3 · C(k, 4)` (combination × split) pairs of the pool. -/
theorem claim1_selection_first_minimum (st : Stats) (remaining : List Player) :
    (chooseBest st remaining).map BestChoice.split =
      (candidates st remaining).find?
        (fun c => (candidates st remaining).all fun c2 => decide (c.score ≤ c2.score))
    ∧ (candidates st remaining).length = 3 * Nat.choose remaining.length 4
    ∧ ∀ cand ∈ candidates st remaining,
        (cand.score : ℚ) = 4 * matchScoreJS st cand.a cand.b cand.c cand.d := by
  refine ⟨?_, ?_, ?_⟩
  · rw [chooseBest_split]
    cases h : candidates st remaining with
    | nil => rfl
    | cons o os =>
      dsimp only
      obtain ⟨l1, l2, hdec, hlt, hmin⟩ := firstMinAux_spec SplitOption.score os o
      have hmem : firstMinAux SplitOption.score o os ∈ o :: os :=
        firstMinAux_mem SplitOption.score o os
      have hfind := find?_first_min SplitOption.score l1 l2
        (firstMinAux SplitOption.score o os) (o :: os) hmem hlt hmin
      rw [← hdec] at hfind
      exact hfind.symm
  · unfold candidates
    rw [splitOptions_flat_length, combs4_length]
  · intro cand hc
    unfold candidates at hc
    obtain ⟨g, -, hmem⟩ := List.mem_flatMap.mp hc
    unfold splitOptions at hmem
    rcases List.mem_cons.mp hmem with heq | hmem
    · rw [heq]; exact matchScore_eq_scaled st _ _ _ _
    rcases List.mem_cons.mp hmem with heq | hmem
    · rw [heq]; exact matchScore_eq_scaled st _ _ _ _
    rcases List.mem_cons.mp hmem with heq | hmem
    · rw [heq]; exact matchScore_eq_scaled st _ _ _ _
    · cases hmem

/-! ### Round-count recommender (C4) -/

/-- Claim C4 as stated is false: it quantifies over *every* integer court
count, but at `N = 4, C = 0` the left side is `recommendRounds(4,0) · 4 ·
min(0, 1) = 0`, which is smaller than `4·3/2 = 6`. -/
theorem claim4_counterexample :
    recommendRoundsPartner 4 0 * 4 * min (0 : Int) ((4 / 4 : Nat) : Int)
      < (4 : Int) * ((4 : Int) - 1) / 2 := by decide

/-- **Claim C4, amended:** the recommender bound holds for every requested
court count `C ≥ 1` (for `C ≤ 0` the claimed product is nonpositive):
`recommendRounds(N,C) · 4 · min(C, ⌊N/4⌋) ≥ N·(N−1)/2` for `N ≥ 4`. -/
theorem claim4_amended (pc : Nat) (C : Int) (hpc : 4 ≤ pc) (hC : 1 ≤ C) :
    (pc : Int) * ((pc : Int) - 1) / 2 ≤
      recommendRoundsPartner pc C * 4 * min C ((pc / 4 : Nat) : Int) := by
  have hlt : ¬ pc < 4 := not_lt.mpr hpc
  simp only [recommendRoundsPartner, if_neg hlt]
  have hF1 : (1 : Int) ≤ ((pc / 4 : Nat) : Int) := by
    have : 1 ≤ pc / 4 := (Nat.one_le_div_iff (by norm_num)).mpr hpc
    exact_mod_cast this
  rw [if_neg (by omega : ¬ ((pc / 4 : Nat) : Int) = 0)]
  rw [max_eq_right (le_min hC hF1)]
  set F : Int := ((pc / 4 : Nat) : Int) with hFdef
  set c : Int := min C F with hcdef
  have hc1 : 1 ≤ c := le_min hC hF1
  have hden : (0 : Int) < 4 * c := by omega
  set num : Int := (pc : Int) * ((pc : Int) - 1) with hnumdef
  have hnum0 : 0 ≤ num := by
    have h4 : (4 : Int) ≤ (pc : Int) := by exact_mod_cast hpc
    nlinarith
  set q : Int := (num + 4 * c - 1) / (4 * c) with hqdef
  have hid : 4 * c * q + (num + 4 * c - 1) % (4 * c) = num + 4 * c - 1 :=
    Int.ediv_add_emod _ _
  have hrem : (num + 4 * c - 1) % (4 * c) < 4 * c := Int.emod_lt_of_pos _ hden
  have hrem1 : (num + 4 * c - 1) % (4 * c) ≤ 4 * c - 1 := by omega
  have hq4c : num ≤ 4 * c * q := by linarith
  have hmaxq : q ≤ max 1 q := le_max_right 1 q
  have hmul : 4 * c * q ≤ 4 * c * max 1 q :=
    mul_le_mul_of_nonneg_left hmaxq (by omega)
  have hhalf : num / 2 ≤ num := Int.ediv_le_self 2 hnum0
  calc num / 2 ≤ num := hhalf
    _ ≤ 4 * c * q := hq4c
    _ ≤ 4 * c * max 1 q := hmul
    _ = max 1 q * 4 * c := by ring

theorem claim4_amended_witness :
    4 ≤ 8 ∧ (1 : Int) ≤ 2
    ∧ (8 : Int) * ((8 : Int) - 1) / 2 ≤
        recommendRoundsPartner 8 2 * 4 * min (2 : Int) ((8 / 4 : Nat) : Int) :=
  ⟨by decide, by decide, claim4_amended 8 2 (by decide) (by decide)⟩

/-! ### Coverage monotonicity (C5) -/

theorem insertUniq_length_le (s : List String) (k : String) :
    s.length ≤ (insertUniq s k).length := by
  unfold insertUniq
  split
  · exact le_refl _
  · rw [List.length_append]
    omega

theorem seenStep_length_le :
    ∀ (ms : List Match) (s : List String),
      s.length ≤ (ms.foldl
        (fun s m =>
          insertUniq (insertUniq s (makeKey m.teamA.1.id m.teamA.2.id))
            (makeKey m.teamB.1.id m.teamB.2.id)) s).length := by
  intro ms
  induction ms with
  | nil => intro s; exact le_refl _
  | cons m ms ih =>
    intro s
    rw [List.foldl_cons]
    exact le_trans (le_trans (insertUniq_length_le _ _) (insertUniq_length_le _ _)) (ih _)

theorem seenRounds_length_le :
    ∀ (rs : List SavedRound) (s : List String),
      s.length ≤ (rs.foldl
        (fun s r => r.matches'.foldl
          (fun s m =>
            insertUniq (insertUniq s (makeKey m.teamA.1.id m.teamA.2.id))
              (makeKey m.teamB.1.id m.teamB.2.id)) s) s).length := by
  intro rs
  induction rs with
  | nil => intro s; exact le_refl _
  | cons r rs ih =>
    intro s
    rw [List.foldl_cons]
    exact le_trans (seenStep_length_le r.matches' s) (ih _)

theorem seenPairsOf_mono (h1 t : List SavedRound) :
    (seenPairsOf h1).length ≤ (seenPairsOf (h1 ++ t)).length := by
  unfold seenPairsOf
  rw [List.foldl_append]
  exact seenRounds_length_le t _

/-- **Claim C5.**  Coverage `percent` is monotone along history prefixes:
whenever `h1` is a prefix of `h2`, the rounded clamped percentage for `h1`
is at most that for `h2`. -/
theorem claim5_coverage_monotone (players : List Player)
    (h1 h2 : List SavedRound) (hpre : h1.IsPrefix h2) :
    (partnerCoverage players h1).percent ≤ (partnerCoverage players h2).percent := by
  obtain ⟨t, rfl⟩ := hpre
  simp only [partnerCoverage]
  by_cases hn : players.length ≤ 1
  · rw [if_pos hn, if_pos hn]
  · rw [if_neg hn, if_neg hn]
    dsimp only
    have hT : (1 : Int) ≤ (players.length : Int) * ((players.length : Int) - 1) / 2 := by
      have h2n : (2 : Int) ≤ (players.length : Int) := by
        omega
      have : (2 : Int) ≤ (players.length : Int) * ((players.length : Int) - 1) := by
        nlinarith
      calc (1 : Int) = 2 / 2 := by decide
        _ ≤ (players.length : Int) * ((players.length : Int) - 1) / 2 :=
          Int.ediv_le_ediv (by decide) this
    have hdone : ((seenPairsOf h1).length : Int) ≤ ((seenPairsOf (h1 ++ t)).length : Int) := by
      exact_mod_cast seenPairsOf_mono h1 t
    have hround : jsRound100 ((seenPairsOf h1).length : Int)
          ((players.length : Int) * ((players.length : Int) - 1) / 2)
        ≤ jsRound100 ((seenPairsOf (h1 ++ t)).length : Int)
          ((players.length : Int) * ((players.length : Int) - 1) / 2) := by
      unfold jsRound100
      exact Int.ediv_le_ediv (by omega) (by omega)
    exact max_le_max (le_refl 0) (min_le_min (le_refl 100) hround)

theorem claim5_coverage_monotone_witness :
    ([] : List SavedRound).IsPrefix [SavedRound.mk []]
    ∧ (partnerCoverage [] []).percent ≤ (partnerCoverage [] [SavedRound.mk []]).percent :=
  ⟨⟨[SavedRound.mk []], rfl⟩,
    claim5_coverage_monotone [] [] [SavedRound.mk []] ⟨[SavedRound.mk []], rfl⟩⟩

/-! ### Degenerate rosters (C7) -/

/-- **Claim C7.**  With fewer than four players (for any court request, any
history and any shuffle outcome) the generator returns no matches and
benches the whole roster, and the recommender returns zero.  All the
embedded operations are total functions, so no input shape raises. -/
theorem claim7_small_roster (players shuffled : List Player) (wanted : Int)
    (rounds : List SavedRound) (hn : players.length < 4)
    (hperm : shuffled.Perm players) :
    (generateFairRound players wanted rounds shuffled).matches' = []
    ∧ (generateFairRound players wanted rounds shuffled).bench.Perm players
    ∧ recommendRoundsPartner players.length wanted = 0 := by
  have hcourts : usedCourts players wanted = 0 := by
    unfold usedCourts
    rw [Nat.div_eq_of_lt hn]
    omega
  refine ⟨?_, ?_, ?_⟩
  · show genLoop (computeStats players rounds) 1 (usedCourts players wanted)
        ((sortByGames (computeStats players rounds) shuffled).take
          (usedCourts players wanted * 4)) = []
    rw [hcourts]
    rfl
  · show ((sortByGames (computeStats players rounds) shuffled).drop
        (usedCourts players wanted * 4)).Perm players
    rw [hcourts]
    rw [Nat.zero_mul, List.drop_zero]
    exact (List.perm_insertionSort _ shuffled).trans hperm
  · unfold recommendRoundsPartner
    rw [if_pos hn]

theorem claim7_small_roster_witness :
    ([⟨"a", "a"⟩, ⟨"b", "b"⟩, ⟨"c", "c"⟩] : List Player).length < 4
    ∧ ((generateFairRound [⟨"a", "a"⟩, ⟨"b", "b"⟩, ⟨"c", "c"⟩] 2 []
          [⟨"b", "b"⟩, ⟨"a", "a"⟩, ⟨"c", "c"⟩]).matches' = []
      ∧ (generateFairRound [⟨"a", "a"⟩, ⟨"b", "b"⟩, ⟨"c", "c"⟩] 2 []
          [⟨"b", "b"⟩, ⟨"a", "a"⟩, ⟨"c", "c"⟩]).bench.Perm
            [⟨"a", "a"⟩, ⟨"b", "b"⟩, ⟨"c", "c"⟩]
      ∧ recommendRoundsPartner
          ([⟨"a", "a"⟩, ⟨"b", "b"⟩, ⟨"c", "c"⟩] : List Player).length 2 = 0) :=
  ⟨by decide,
    claim7_small_roster [⟨"a", "a"⟩, ⟨"b", "b"⟩, ⟨"c", "c"⟩]
      [⟨"b", "b"⟩, ⟨"a", "a"⟩, ⟨"c", "c"⟩] 2 [] (by decide) (by decide)⟩

/-! ### Structure of the chosen group (towards C2, C3, C8) -/

theorem combs2_sublist :
    ∀ (l : List Player) (x y : Player), (x, y) ∈ combs2 l →
      List.Sublist [x, y] l := by
  intro l
  induction l with
  | nil => intro x y h; cases h
  | cons a xs ih =>
    intro x y h
    rw [combs2, List.mem_append] at h
    rcases h with h | h
    · obtain ⟨y', hy', heq⟩ := List.mem_map.mp h
      have hx : x = a := congrArg Prod.fst heq.symm
      have hy : y = y' := congrArg Prod.snd heq.symm
      subst hx
      rw [hy]
      exact (List.singleton_sublist.mpr hy').cons₂ x
    · exact (ih x y h).cons a

theorem combs3_sublist :
    ∀ (l : List Player) (x y z : Player), (x, y, z) ∈ combs3 l →
      List.Sublist [x, y, z] l := by
  intro l
  induction l with
  | nil => intro x y z h; cases h
  | cons a xs ih =>
    intro x y z h
    rw [combs3, List.mem_append] at h
    rcases h with h | h
    · obtain ⟨yz, hyz, heq⟩ := List.mem_map.mp h
      have hx : x = a := congrArg Prod.fst heq.symm
      have hy : y = yz.1 := congrArg (fun t => t.2.1) heq.symm
      have hz : z = yz.2 := congrArg (fun t => t.2.2) heq.symm
      subst hx
      rw [hy, hz]
      exact (combs2_sublist xs yz.1 yz.2 hyz).cons₂ x
    · exact (ih x y z h).cons a

theorem combs4_sublist :
    ∀ (l : List Player) (p q r s : Player), (p, q, r, s) ∈ combs4 l →
      List.Sublist [p, q, r, s] l := by
  intro l
  induction l with
  | nil => intro p q r s h; cases h
  | cons a xs ih =>
    intro p q r s h
    rw [combs4, List.mem_append] at h
    rcases h with h | h
    · obtain ⟨t, ht, heq⟩ := List.mem_map.mp h
      have hp : p = a := congrArg Prod.fst heq.symm
      have hq : q = t.1 := congrArg (fun u => u.2.1) heq.symm
      have hr : r = t.2.1 := congrArg (fun u => u.2.2.1) heq.symm
      have hs' : s = t.2.2 := congrArg (fun u => u.2.2.2) heq.symm
      subst hp
      rw [hq, hr, hs']
      exact (combs3_sublist xs t.1 t.2.1 t.2.2 ht).cons₂ p
    · exact (ih p q r s h).cons a

theorem chooseBest_isSome (st : Stats) (rem : List Player) (h4 : 4 ≤ rem.length) :
    ∃ bc, chooseBest st rem = some bc := by
  rw [chooseBest_eq]
  cases h : combs4 rem with
  | nil =>
    exfalso
    have hlen := combs4_length rem
    rw [h, List.length_nil] at hlen
    have hpos := Nat.choose_pos h4
    omega
  | cons g gs => exact ⟨_, rfl⟩

theorem chooseBest_mem (st : Stats) (rem : List Player) (bc : BestChoice)
    (h : chooseBest st rem = some bc) :
    ∃ g, g ∈ combs4 rem ∧ evalComb st g = bc := by
  rw [chooseBest_eq] at h
  cases hc : combs4 rem with
  | nil => rw [hc] at h; cases h
  | cons g gs =>
    rw [hc] at h
    have hbc : firstMinAux (fun bc => bc.split.score) (evalComb st g)
        (gs.map (evalComb st)) = bc := Option.some.inj h
    have hmem := firstMinAux_mem (fun bc : BestChoice => bc.split.score)
      (evalComb st g) (gs.map (evalComb st))
    rw [← List.map_cons] at hmem
    rw [hbc] at hmem
    obtain ⟨g', hg', heq⟩ := List.mem_map.mp hmem
    exact ⟨g', hc ▸ hg', heq⟩

/-- The four players of the best split are the four players of the chosen
group, in one of the three split orders. -/
theorem bestSplit_players_perm (st : Stats) (p q r s : Player) :
    [(bestSplitForFour st p q r s).a, (bestSplitForFour st p q r s).b,
     (bestSplitForFour st p q r s).c, (bestSplitForFour st p q r s).d].Perm
      [p, q, r, s] := by
  have hmem : bestSplitForFour st p q r s ∈ splitOptions st p q r s := by
    rw [bestSplitForFour_eq]
    exact firstMinAux_mem _ _ _
  unfold splitOptions at hmem
  rcases List.mem_cons.mp hmem with heq | hmem
  · rw [heq]
  · rcases List.mem_cons.mp hmem with heq | hmem
    · rw [heq]
      exact List.Perm.cons p (List.Perm.swap q r [s])
    · rcases List.mem_cons.mp hmem with heq | hmem
      · rw [heq]
        exact List.Perm.cons p ((List.Perm.swap q s [r]).trans
          (List.Perm.cons q (List.Perm.swap r s [])))
      · cases hmem

/-- Removing a sublist's identifiers by filtering: the removed identifiers
together with the survivors are a permutation of the original pool's
identifiers. -/
theorem sublist_filter_perm :
    ∀ {sub l : List Player}, List.Sublist sub l → (l.map Player.id).Nodup →
      ((sub.map Player.id) ++
        ((l.filter fun x => ! (sub.map Player.id).contains x.id).map Player.id)).Perm
        (l.map Player.id) := by
  intro sub l hsub
  induction hsub with
  | slnil => intro _; simp
  | @cons l₁ l₂ a hs ih =>
    intro hnd
    rw [List.map_cons] at hnd
    have hndtail : (l₂.map Player.id).Nodup := (List.nodup_cons.mp hnd).2
    have hanotin : a.id ∉ l₁.map Player.id := by
      intro hmem
      exact (List.nodup_cons.mp hnd).1 ((hs.map Player.id).subset hmem)
    have hfilter : (a :: l₂).filter (fun x => ! (l₁.map Player.id).contains x.id)
        = a :: l₂.filter (fun x => ! (l₁.map Player.id).contains x.id) := by
      rw [List.filter_cons, if_pos (by simp [List.elem_iff, hanotin])]
    rw [hfilter, List.map_cons, List.map_cons]
    exact List.Perm.trans List.perm_middle ((ih hndtail).cons a.id)
  | @cons₂ l₁ l₂ a hs ih =>
    intro hnd
    rw [List.map_cons] at hnd
    have hndtail : (l₂.map Player.id).Nodup := (List.nodup_cons.mp hnd).2
    have hanotin : a.id ∉ l₂.map Player.id := (List.nodup_cons.mp hnd).1
    have hfilter : (a :: l₂).filter (fun x => ! ((a :: l₁).map Player.id).contains x.id)
        = l₂.filter fun x => ! (l₁.map Player.id).contains x.id := by
      rw [List.filter_cons, if_neg (by simp)]
      apply List.filter_congr
      intro x hx
      have hxa : x.id ≠ a.id :=
        fun he => hanotin (he ▸ List.mem_map_of_mem Player.id hx)
      simp [List.elem_iff, hxa]
    rw [hfilter, List.map_cons, List.cons_append, List.map_cons]
    exact (ih hndtail).cons a.id

theorem genLoop_zero (st : Stats) (court : Nat) (rem : List Player) :
    genLoop st court 0 rem = [] := rfl

theorem genLoop_succ (st : Stats) (court fuel : Nat) (rem : List Player) :
    genLoop st court (fuel + 1) rem =
      if rem.length < 4 then []
      else
        match chooseBest st rem with
        | none => []
        | some best =>
          { court := court
            teamA := (best.split.a, best.split.b)
            teamB := (best.split.c, best.split.d) }
            :: genLoop st (court + 1) fuel (rem.filter fun x =>
                ! [best.group.1.id, best.group.2.1.id, best.group.2.2.1.id,
                   best.group.2.2.2.id].contains x.id) := rfl

/-- Loop invariant of the court loop: starting from a pool of exactly
`4·fuel` players with distinct identifiers, the loop emits matches with
court numbers `court, court+1, …`, whose players are together a
permutation of the pool, each match with four distinct identifiers. -/
theorem genLoop_spec (st : Stats) :
    ∀ (fuel court : Nat) (rem : List Player),
      (rem.map Player.id).Nodup → rem.length = 4 * fuel →
      (genLoop st court fuel rem).map Match.court = List.range' court fuel
      ∧ ((genLoop st court fuel rem).flatMap matchIds).Perm (rem.map Player.id)
      ∧ ∀ m ∈ genLoop st court fuel rem, (matchIds m).Nodup := by
  intro fuel
  induction fuel with
  | zero =>
    intro court rem hnd hlen
    have hrem : rem = [] := List.length_eq_zero.mp (by omega)
    subst hrem
    exact ⟨rfl, by simp [genLoop_zero], by simp [genLoop_zero]⟩
  | succ fuel ih =>
    intro court rem hnd hlen
    have h4 : ¬ rem.length < 4 := by omega
    obtain ⟨bc, hbc⟩ := chooseBest_isSome st rem (by omega)
    obtain ⟨g, hg, hev⟩ := chooseBest_mem st rem bc hbc
    rw [genLoop_succ, if_neg h4, hbc]
    dsimp only
    have hsubl : List.Sublist [g.1, g.2.1, g.2.2.1, g.2.2.2] rem :=
      combs4_sublist rem g.1 g.2.1 g.2.2.1 g.2.2.2 hg
    have hchosen : [bc.group.1.id, bc.group.2.1.id, bc.group.2.2.1.id,
        bc.group.2.2.2.id] = [g.1, g.2.1, g.2.2.1, g.2.2.2].map Player.id := by
      rw [← hev]; rfl
    rw [hchosen]
    have hsplitperm : (matchIds
        ⟨court, (bc.split.a, bc.split.b), (bc.split.c, bc.split.d)⟩).Perm
        ([g.1, g.2.1, g.2.2.1, g.2.2.2].map Player.id) := by
      rw [← hev]
      have hp := (bestSplit_players_perm st g.1 g.2.1 g.2.2.1 g.2.2.2).map Player.id
      simpa [matchIds] using hp
    have hndsub : ([g.1, g.2.1, g.2.2.1, g.2.2.2].map Player.id).Nodup :=
      hnd.sublist (hsubl.map Player.id)
    have hperm4 : ([g.1, g.2.1, g.2.2.1, g.2.2.2].map Player.id ++
        ((rem.filter fun x =>
          ! ([g.1, g.2.1, g.2.2.1, g.2.2.2].map Player.id).contains x.id).map
            Player.id)).Perm (rem.map Player.id) :=
      sublist_filter_perm hsubl hnd
    have hrem2len : (rem.filter fun x =>
        ! ([g.1, g.2.1, g.2.2.1, g.2.2.2].map Player.id).contains x.id).length
          = 4 * fuel := by
      have hlen2 := hperm4.length_eq
      rw [List.length_append, List.length_map, List.length_map,
        List.length_map] at hlen2
      have h4' : ([g.1, g.2.1, g.2.2.1, g.2.2.2] : List Player).length = 4 := rfl
      omega
    have hndrem2 : ((rem.filter fun x =>
        ! ([g.1, g.2.1, g.2.2.1, g.2.2.2].map Player.id).contains x.id).map
          Player.id).Nodup :=
      hnd.sublist ((List.filter_sublist rem).map Player.id)
    obtain ⟨ihc, ihperm, ihnd⟩ := ih (court + 1) _ hndrem2 hrem2len
    refine ⟨?_, ?_, ?_⟩
    · rw [List.map_cons, ihc]
      exact (List.range'_succ court fuel 1).symm
    · rw [List.flatMap_cons]
      exact (hsplitperm.append ihperm).trans hperm4
    · intro m hm
      rcases List.mem_cons.mp hm with rfl | hm
      · exact (hsplitperm.nodup_iff).mpr hndsub
      · exact ihnd m hm

theorem usedCourts_mul_le (players : List Player) (wanted : Int) :
    usedCourts players wanted * 4 ≤ players.length := by
  unfold usedCourts
  have h1 : (max 0 (min wanted ((players.length / 4 : Nat) : Int))).toNat
      ≤ players.length / 4 := by omega
  calc (max 0 (min wanted ((players.length / 4 : Nat) : Int))).toNat * 4
      ≤ players.length / 4 * 4 := Nat.mul_le_mul_right 4 h1
    _ ≤ players.length := Nat.div_mul_le_self _ _

/-- Full specification of a generated round (shared helper): court numbers
are `1..count`, the match count is the used-court count, matches have four
distinct identifiers each, and together their identifiers are exactly the
active set, each exactly once. -/
theorem genRound_partition (players shuffled : List Player) (wanted : Int)
    (rounds : List SavedRound) (hperm : shuffled.Perm players)
    (hnd : (players.map Player.id).Nodup) :
    (generateFairRound players wanted rounds shuffled).matches'.map Match.court
        = List.range' 1 (generateFairRound players wanted rounds shuffled).matches'.length
    ∧ (∀ m ∈ (generateFairRound players wanted rounds shuffled).matches',
        (matchIds m).Nodup)
    ∧ ((generateFairRound players wanted rounds shuffled).matches'.flatMap
        matchIds).Perm ((activePlayers players wanted rounds shuffled).map Player.id)
    ∧ ((generateFairRound players wanted rounds shuffled).matches'.flatMap
        matchIds).Nodup
    ∧ (generateFairRound players wanted rounds shuffled).matches'.length
        = usedCourts players wanted := by
  have hbg : (sortByGames (computeStats players rounds) shuffled).Perm players :=
    (List.perm_insertionSort _ shuffled).trans hperm
  have hndbg : ((sortByGames (computeStats players rounds) shuffled).map
      Player.id).Nodup := ((hbg.map Player.id).nodup_iff).mpr hnd
  have hmle : usedCourts players wanted * 4
      ≤ (sortByGames (computeStats players rounds) shuffled).length := by
    rw [hbg.length_eq]
    exact usedCourts_mul_le players wanted
  have hactlen : ((sortByGames (computeStats players rounds) shuffled).take
      (usedCourts players wanted * 4)).length = 4 * usedCourts players wanted := by
    rw [List.length_take]
    omega
  have hndact : (((sortByGames (computeStats players rounds) shuffled).take
      (usedCourts players wanted * 4)).map Player.id).Nodup :=
    hndbg.sublist ((List.take_sublist _ _).map Player.id)
  obtain ⟨hc, hp, hn⟩ := genLoop_spec (computeStats players rounds)
    (usedCourts players wanted) 1 _ hndact hactlen
  have hm : (generateFairRound players wanted rounds shuffled).matches' =
      genLoop (computeStats players rounds) 1 (usedCourts players wanted)
        ((sortByGames (computeStats players rounds) shuffled).take
          (usedCourts players wanted * 4)) := rfl
  have hlenm : (generateFairRound players wanted rounds shuffled).matches'.length
      = usedCourts players wanted := by
    rw [hm]
    have := congrArg List.length hc
    rwa [List.length_map, List.length_range'] at this
  refine ⟨?_, ?_, ?_, ?_, hlenm⟩
  · rw [hlenm, hm]
    exact hc
  · intro m hmem
    rw [hm] at hmem
    exact hn m hmem
  · rw [hm]
    exact hp
  · rw [hm]
    exact (hp.nodup_iff).mpr hndact

/-- **Claim C2.**  For every roster with distinct identifiers, every
history, every requested court count, and every shuffle outcome: the
matches are numbered with contiguous court numbers `1..count` in output
order, each match's four identifiers are pairwise distinct, no identifier
appears in two matches, and the identifiers of the matches are exactly the
active set (the first `usedCourts·4` players of the games-played ranking),
each exactly once. -/
theorem claim2_round_partition (players shuffled : List Player) (wanted : Int)
    (rounds : List SavedRound) (hperm : shuffled.Perm players)
    (hnd : (players.map Player.id).Nodup) :
    (generateFairRound players wanted rounds shuffled).matches'.map Match.court
        = List.range' 1 (generateFairRound players wanted rounds shuffled).matches'.length
    ∧ (∀ m ∈ (generateFairRound players wanted rounds shuffled).matches',
        (matchIds m).Nodup)
    ∧ ((generateFairRound players wanted rounds shuffled).matches'.flatMap
        matchIds).Perm ((activePlayers players wanted rounds shuffled).map Player.id)
    ∧ ((generateFairRound players wanted rounds shuffled).matches'.flatMap
        matchIds).Nodup := by
  obtain ⟨h1, h2, h3, h4, -⟩ :=
    genRound_partition players shuffled wanted rounds hperm hnd
  exact ⟨h1, h2, h3, h4⟩

theorem claim2_round_partition_witness :
    (w5Shuffled.Perm w5Players ∧ (w5Players.map Player.id).Nodup)
    ∧ ((generateFairRound w5Players 1 [] w5Shuffled).matches'.map Match.court
        = List.range' 1 (generateFairRound w5Players 1 [] w5Shuffled).matches'.length
      ∧ (∀ m ∈ (generateFairRound w5Players 1 [] w5Shuffled).matches',
          (matchIds m).Nodup)
      ∧ ((generateFairRound w5Players 1 [] w5Shuffled).matches'.flatMap
          matchIds).Perm ((activePlayers w5Players 1 [] w5Shuffled).map Player.id)
      ∧ ((generateFairRound w5Players 1 [] w5Shuffled).matches'.flatMap
          matchIds).Nodup) :=
  ⟨⟨by decide, by decide⟩,
    claim2_round_partition w5Players w5Shuffled 1 [] (by decide) (by decide)⟩

/-! ### The concrete four-player scenario (C8) -/

/-- Claim C8's coverage figures are false on the code: saving the round the
generator produces for roster `[A,B,C,D]` (empty history, one court,
identity shuffle) and querying `partnerCoverage` yields `percent = 33` and
`missingPairs = 4` — one saved match covers *two* partnerships — not the
claimed `17` and `5`. -/
theorem claim8_counterexample :
    (partnerCoverage c8Players
        [⟨(generateFairRound c8Players 1 [] c8Players).matches'⟩]).percent = 33
    ∧ (partnerCoverage c8Players
        [⟨(generateFairRound c8Players 1 [] c8Players).matches'⟩]).missingPairs = 4
    ∧ (partnerCoverage c8Players
        [⟨(generateFairRound c8Players 1 [] c8Players).matches'⟩]).percent ≠ 17
    ∧ (partnerCoverage c8Players
        [⟨(generateFairRound c8Players 1 [] c8Players).matches'⟩]).missingPairs ≠ 5 := by
  decide

/-- **Claim C8, amended:** (A) for roster `[A,B,C,D]`, empty history, one
requested court and any shuffle outcome, the generated round is exactly one
match containing all four players, with an empty bench; (B) saving any of
the three possible splits of the four players as a one-match round yields
`totalPairs = 6`, `percent = 33`, `missingPairs = 4`, `complete = false`
(one saved match covers two partnerships, so coverage is
`round(2/6·100) = 33` with `4` missing, not `17`/`5`). -/
theorem claim8_amended :
    (∀ shuffled : List Player, shuffled.Perm c8Players →
      (generateFairRound c8Players 1 [] shuffled).matches'.length = 1
      ∧ ((generateFairRound c8Players 1 [] shuffled).matches'.flatMap matchIds).Perm
          (c8Players.map Player.id)
      ∧ (generateFairRound c8Players 1 [] shuffled).bench = [])
    ∧ partnerCoverage c8Players
        [⟨[⟨1, (⟨"a", "A"⟩, ⟨"b", "B"⟩), (⟨"c", "C"⟩, ⟨"d", "D"⟩)⟩]⟩]
        = ⟨false, 33, 4, 6⟩
    ∧ partnerCoverage c8Players
        [⟨[⟨1, (⟨"a", "A"⟩, ⟨"c", "C"⟩), (⟨"b", "B"⟩, ⟨"d", "D"⟩)⟩]⟩]
        = ⟨false, 33, 4, 6⟩
    ∧ partnerCoverage c8Players
        [⟨[⟨1, (⟨"a", "A"⟩, ⟨"d", "D"⟩), (⟨"b", "B"⟩, ⟨"c", "C"⟩)⟩]⟩]
        = ⟨false, 33, 4, 6⟩ := by
  refine ⟨?_, by decide, by decide, by decide⟩
  intro shuffled hperm
  have hnd : (c8Players.map Player.id).Nodup := by decide
  obtain ⟨h1, h2, h3, h4, h5⟩ := genRound_partition c8Players shuffled 1 [] hperm hnd
  have hused : usedCourts c8Players 1 = 1 := by decide
  have hbgperm : (sortByGames (computeStats c8Players []) shuffled).Perm c8Players :=
    (List.perm_insertionSort _ shuffled).trans hperm
  have hlenbg : (sortByGames (computeStats c8Players []) shuffled).length
      = c8Players.length := hbgperm.length_eq
  refine ⟨by rw [h5, hused], ?_, ?_⟩
  · have hact : (activePlayers c8Players 1 [] shuffled).Perm c8Players := by
      unfold activePlayers
      rw [hused]
      rw [List.take_of_length_le (by rw [hlenbg]; decide :
        (sortByGames (computeStats c8Players []) shuffled).length ≤ 1 * 4)]
      exact hbgperm
    exact h3.trans (hact.map Player.id)
  · show (sortByGames (computeStats c8Players []) shuffled).drop
        (usedCourts c8Players 1 * 4) = []
    apply List.drop_eq_nil_of_le
    rw [hlenbg, hused]
    decide

theorem claim8_amended_witness :
    c8Players.Perm c8Players
    ∧ ((generateFairRound c8Players 1 [] c8Players).matches'.length = 1
      ∧ ((generateFairRound c8Players 1 [] c8Players).matches'.flatMap matchIds).Perm
          (c8Players.map Player.id)
      ∧ (generateFairRound c8Players 1 [] c8Players).bench = []) :=
  ⟨List.Perm.refl _, claim8_amended.1 c8Players (List.Perm.refl _)⟩

/-! ### Rounding can hit 100 percent before completion (C10) -/

set_option maxRecDepth 20000 in
/-- **Claim C10.**  There is a roster and history with `percent = 100` but
`complete = false`: 21 players have 210 pairs; a history covering exactly
209 of them rounds to `round(209/210·100) = 100` while one partnership is
still missing. -/
theorem claim10_percent_100_incomplete :
    (partnerCoverage c10Players [c10Round]).percent = 100
    ∧ (partnerCoverage c10Players [c10Round]).complete = false := by
  decide

/-! ### Record lemmas and the games-played aggregation (C9) -/

theorem recGet_nil {α : Type} (k : String) : recGet ([] : Rec α) k = none := rfl

theorem recGet_cons {α : Type} (k' : String) (v' : α) (rest : Rec α) (k : String) :
    recGet ((k', v') :: rest) k = if k' = k then some v' else recGet rest k := rfl

theorem recSet_nil {α : Type} (k : String) (v : α) :
    recSet ([] : Rec α) k v = [(k, v)] := rfl

theorem recSet_cons {α : Type} (k' : String) (v' : α) (rest : Rec α)
    (k : String) (v : α) :
    recSet ((k', v') :: rest) k v =
      if k' = k then (k, v) :: rest else (k', v') :: recSet rest k v := rfl

theorem recGet_recSet_self {α : Type} :
    ∀ (m : Rec α) (k : String) (v : α), recGet (recSet m k v) k = some v := by
  intro m
  induction m with
  | nil => intro k v; rw [recSet_nil, recGet_cons, if_pos rfl]
  | cons e rest ih =>
    intro k v
    obtain ⟨k', v'⟩ := e
    rw [recSet_cons]
    by_cases h : k' = k
    · rw [if_pos h, recGet_cons, if_pos rfl]
    · rw [if_neg h, recGet_cons, if_neg h]
      exact ih k v

theorem recGet_recSet_ne {α : Type} :
    ∀ (m : Rec α) (k k' : String) (v : α), k' ≠ k →
      recGet (recSet m k v) k' = recGet m k' := by
  intro m
  induction m with
  | nil =>
    intro k k' v h
    rw [recSet_nil, recGet_cons, if_neg (fun hh => h hh.symm)]
  | cons e rest ih =>
    intro k k' v h
    obtain ⟨a, b⟩ := e
    rw [recSet_cons]
    by_cases ha : a = k
    · subst ha
      rw [if_pos rfl, recGet_cons, recGet_cons, if_neg (fun hh => h hh.symm),
        if_neg (fun hh => h hh.symm)]
    · rw [if_neg ha, recGet_cons, recGet_cons]
      by_cases ha' : a = k'
      · rw [if_pos ha', if_pos ha']
      · rw [if_neg ha', if_neg ha']
        exact ih k k' v h

theorem recSet_mem {α : Type} :
    ∀ (m : Rec α) (k : String) (v : α) (e : String × α),
      e ∈ recSet m k v → e = (k, v) ∨ e ∈ m := by
  intro m
  induction m with
  | nil =>
    intro k v e he
    rw [recSet] at he
    rcases List.mem_cons.mp he with h | h
    · exact Or.inl h
    · cases h
  | cons a rest ih =>
    intro k v e he
    obtain ⟨k', v'⟩ := a
    rw [recSet] at he
    by_cases h : k' = k
    · rw [if_pos h] at he
      rcases List.mem_cons.mp he with h' | h'
      · exact Or.inl h'
      · exact Or.inr (List.mem_cons_of_mem _ h')
    · rw [if_neg h] at he
      rcases List.mem_cons.mp he with h' | h'
      · exact Or.inr (h' ▸ List.mem_cons_self _ _)
      · rcases ih k v e h' with h'' | h''
        · exact Or.inl h''
        · exact Or.inr (List.mem_cons_of_mem _ h'')

theorem incrGames_get (m : Rec (Option Int)) (k k' : String) :
    recGet (incrGames m k) k' =
      if k' = k then some (incrVal (recGet m k)) else recGet m k' := by
  unfold incrGames
  by_cases h : k' = k
  · subst h
    rw [if_pos rfl, recGet_recSet_self]
  · rw [if_neg h, recGet_recSet_ne _ _ _ _ h]

theorem gpInv_step (players : List Player) (g : Rec (Option Int))
    (done : List String) (a : String) (h : gpInv players g done) :
    gpInv players (incrGames g a) (done ++ [a]) := by
  obtain ⟨h1, h2, h3⟩ := h
  refine ⟨?_, ?_, ?_⟩
  · intro p hp
    rw [incrGames_get]
    by_cases hpa : p.id = a
    · rw [if_pos hpa, ← hpa, h1 p hp]
      have hcnt : (done ++ [p.id]).count p.id = done.count p.id + 1 := by
        simp [List.count_append]
      rw [hcnt]
      unfold incrVal
      push_cast
      rfl
    · rw [if_neg hpa, h1 p hp]
      have hcnt : (done ++ [a]).count p.id = done.count p.id := by
        simp [List.count_append, List.count_singleton, hpa]
      rw [hcnt]
  · intro k hk
    rw [incrGames_get]
    by_cases hka : k = a
    · subst hka
      rw [if_pos rfl, h2 k hk]
      by_cases hkd : k ∈ done
      · rw [if_pos hkd, if_pos (List.mem_append_left _ hkd)]
        rfl
      · rw [if_neg hkd, if_pos (List.mem_append_right _ (List.mem_singleton.mpr rfl))]
        rfl
    · rw [if_neg hka, h2 k hk]
      by_cases hkd : k ∈ done
      · rw [if_pos hkd, if_pos (List.mem_append_left _ hkd)]
      · rw [if_neg hkd, if_neg (by simp [List.mem_append, hka, hkd])]
  · intro e he
    rcases recSet_mem _ _ _ _ he with rfl | he
    · by_cases ha : a ∈ players.map Player.id
      · exact Or.inl ha
      · right
        show incrVal (recGet g a) = none
        rw [h2 a ha]
        by_cases hd : a ∈ done
        · rw [if_pos hd]; rfl
        · rw [if_neg hd]; rfl
    · exact h3 e he

theorem gpInv_addMatch (players : List Player) (st : Stats) (done : List String)
    (mm : Match) (h : gpInv players st.gamesPlayed done) :
    gpInv players (statsAddMatch st mm).gamesPlayed (done ++ matchIds mm) := by
  have h4 := gpInv_step players _ _ mm.teamB.2.id
    (gpInv_step players _ _ mm.teamB.1.id
      (gpInv_step players _ _ mm.teamA.2.id
        (gpInv_step players _ _ mm.teamA.1.id h)))
  have heq : done ++ [mm.teamA.1.id] ++ [mm.teamA.2.id] ++ [mm.teamB.1.id]
      ++ [mm.teamB.2.id] = done ++ matchIds mm := by
    simp [matchIds]
  rw [heq] at h4
  exact h4

theorem gpInv_matches (players : List Player) :
    ∀ (ms : List Match) (st : Stats) (done : List String),
      gpInv players st.gamesPlayed done →
      gpInv players ((ms.foldl statsAddMatch st).gamesPlayed)
        (done ++ ms.flatMap matchIds) := by
  intro ms
  induction ms with
  | nil => intro st done h; simpa using h
  | cons mm ms ih =>
    intro st done h
    rw [List.foldl_cons, List.flatMap_cons, ← List.append_assoc]
    exact ih (statsAddMatch st mm) _ (gpInv_addMatch players st done mm h)

theorem gpInv_rounds (players : List Player) :
    ∀ (rs : List SavedRound) (st : Stats) (done : List String),
      gpInv players st.gamesPlayed done →
      gpInv players
        ((rs.foldl (fun st r => r.matches'.foldl statsAddMatch st) st).gamesPlayed)
        (done ++ rs.flatMap fun r => r.matches'.flatMap matchIds) := by
  intro rs
  induction rs with
  | nil => intro st done h; simpa using h
  | cons r rs ih =>
    intro st done h
    rw [List.foldl_cons, List.flatMap_cons, ← List.append_assoc]
    exact ih _ _ (gpInv_matches players r.matches' st done h)

theorem init_get (k : String) :
    ∀ (ps : List Player) (m : Rec (Option Int)),
      recGet (ps.foldl (fun m p => recSet m p.id (some 0)) m) k =
        if k ∈ ps.map Player.id then some (some 0) else recGet m k := by
  intro ps
  induction ps with
  | nil => intro m; rw [List.foldl_nil, List.map_nil, if_neg (List.not_mem_nil k)]
  | cons p ps ih =>
    intro m
    rw [List.foldl_cons, ih]
    by_cases hmem : k ∈ ps.map Player.id
    · rw [if_pos hmem, if_pos (List.map_cons .. ▸ List.mem_cons_of_mem _ hmem)]
    · rw [if_neg hmem]
      by_cases hk : k = p.id
      · rw [hk, recGet_recSet_self,
          if_pos (List.map_cons .. ▸ hk ▸ List.mem_cons_self _ _)]
      · rw [recGet_recSet_ne _ _ _ _ hk]
        rw [if_neg]
        rw [List.map_cons]
        intro hcon
        rcases List.mem_cons.mp hcon with h | h
        · exact hk h
        · exact hmem h

theorem init_mem (e : String × Option Int) :
    ∀ (ps : List Player) (m : Rec (Option Int)),
      e ∈ ps.foldl (fun m p => recSet m p.id (some 0)) m →
      e ∈ m ∨ e.1 ∈ ps.map Player.id := by
  intro ps
  induction ps with
  | nil => intro m h; exact Or.inl h
  | cons p ps ih =>
    intro m h
    rw [List.foldl_cons] at h
    rcases ih _ h with h' | h'
    · rcases recSet_mem _ _ _ _ h' with rfl | h''
      · exact Or.inr (List.map_cons .. ▸ List.mem_cons_self _ _)
      · exact Or.inl h''
    · exact Or.inr (List.map_cons .. ▸ List.mem_cons_of_mem _ h')

theorem gpInv_computeStats (players : List Player) (rounds : List SavedRound) :
    gpInv players (computeStats players rounds).gamesPlayed
      (rounds.flatMap fun r => r.matches'.flatMap matchIds) := by
  have hinit : gpInv players
      (players.foldl (fun m p => recSet m p.id (some 0)) []) [] := by
    refine ⟨?_, ?_, ?_⟩
    · intro p hp
      rw [init_get, if_pos (List.mem_map_of_mem Player.id hp)]
      rfl
    · intro k hk
      rw [init_get, if_neg hk, recGet]
      rw [if_neg (List.not_mem_nil k)]
    · intro e he
      rcases init_mem e players [] he with h | h
      · cases h
      · exact Or.inl h
  have := gpInv_rounds players rounds
    ⟨players.foldl (fun m p => recSet m p.id (some 0)) [], [], []⟩ [] hinit
  simpa using this

/-- Claim C9 as stated is false on the code: history rows mentioning
removed players are *not* ignored.  With roster `[P]` and one match
`(P,Q) vs (R,S)`, the games-played record gains NaN entries for the
non-roster identifiers `Q`, `R`, `S`, and `P`'s count is incremented to 1
by that very row (it would be 0 if the row were ignored). -/
theorem claim9_counterexample :
    (computeStats c9Roster [c9Round]).gamesPlayed
        = [("P", some 1), ("Q", none), ("R", none), ("S", none)]
    ∧ ¬ (∀ e ∈ (computeStats c9Roster [c9Round]).gamesPlayed,
          e.1 ∈ c9Roster.map Player.id)
    ∧ recGet (computeStats c9Roster [c9Round]).gamesPlayed "P" ≠ some (some 0) := by
  refine ⟨by decide, ?_, by decide⟩
  intro h
  exact absurd (h ("Q", none) (by decide)) (by decide)

/-- **Claim C9, amended:** the games-played map contains a numeric entry
for every roster identifier, equal to the number of history match slots
naming it — so rows that also mention removed players *do* count for the
roster players in them; every other entry of the map belongs to an
identifier occurring in the history and carries NaN (`none`), i.e. orphan
rows add NaN entries rather than none. -/
theorem claim9_amended (players : List Player) (rounds : List SavedRound) :
    (∀ p ∈ players, recGet (computeStats players rounds).gamesPlayed p.id
        = some (some
          ((((rounds.flatMap fun r => r.matches'.flatMap matchIds).count p.id : Nat)
            : Int))))
    ∧ ∀ e ∈ (computeStats players rounds).gamesPlayed,
        e.1 ∈ players.map Player.id ∨ e.2 = none := by
  obtain ⟨h1, -, h3⟩ := gpInv_computeStats players rounds
  exact ⟨h1, h3⟩

theorem claim9_amended_witness :
    (∀ p ∈ c9Roster, recGet (computeStats c9Roster [c9Round]).gamesPlayed p.id
        = some (some
          (((([c9Round].flatMap fun r => r.matches'.flatMap matchIds).count p.id
            : Nat) : Int))))
    ∧ ∀ e ∈ (computeStats c9Roster [c9Round]).gamesPlayed,
        e.1 ∈ c9Roster.map Player.id ∨ e.2 = none :=
  claim9_amended c9Roster [c9Round]

/-! ### Partner/opponent counts as key multiplicities (towards C3) -/

theorem recGetD_incrPair (m : Rec Int) (k k' : String) :
    recGetD (incrPair m k) k' 0 = recGetD m k' 0 + (if k' = k then 1 else 0) := by
  by_cases h : k' = k
  · subst h
    rw [if_pos rfl]
    show (recGet (recSet m k' (recGetD m k' 0 + 1)) k').getD 0 = _
    rw [recGet_recSet_self]
    rfl
  · rw [if_neg h, add_zero]
    show (recGet (recSet m k (recGetD m k 0 + 1)) k').getD 0 = _
    rw [recGet_recSet_ne _ _ _ _ h]
    rfl

theorem count_cast_ifs :
    ∀ (l : List String) (k : String),
      ((l.count k : Nat) : Int) = (l.map fun a => if k = a then (1 : Int) else 0).sum := by
  intro l
  induction l with
  | nil => intro k; simp
  | cons a l ih =>
    intro k
    by_cases h : k = a
    · simp only [List.count_cons, h, beq_self_eq_true, if_true, List.map_cons,
        List.sum_cons, if_pos rfl]
      push_cast
      rw [ih]
      ring
    · simp [List.count_cons, h, ih]

theorem partner_getD_addMatch (st : Stats) (mm : Match) (k : String) :
    recGetD (statsAddMatch st mm).partnerCount k 0 =
      recGetD st.partnerCount k 0 + ((teamKeys mm).count k : Int) := by
  show recGetD (incrPair (incrPair st.partnerCount
      (makeKey mm.teamA.1.id mm.teamA.2.id))
      (makeKey mm.teamB.1.id mm.teamB.2.id)) k 0 = _
  rw [recGetD_incrPair, recGetD_incrPair, count_cast_ifs]
  unfold teamKeys
  rw [List.map_cons, List.map_cons, List.map_nil, List.sum_cons, List.sum_cons,
    List.sum_nil]
  ring

theorem opp_getD_addMatch (st : Stats) (mm : Match) (k : String) :
    recGetD (statsAddMatch st mm).opponentCount k 0 =
      recGetD st.opponentCount k 0 + ((crossKeys mm).count k : Int) := by
  show recGetD (incrPair (incrPair (incrPair (incrPair st.opponentCount
      (makeKey mm.teamA.1.id mm.teamB.1.id)) (makeKey mm.teamA.1.id mm.teamB.2.id))
      (makeKey mm.teamA.2.id mm.teamB.1.id)) (makeKey mm.teamA.2.id mm.teamB.2.id)) k 0 = _
  rw [recGetD_incrPair, recGetD_incrPair, recGetD_incrPair, recGetD_incrPair,
    count_cast_ifs]
  unfold crossKeys
  rw [List.map_cons, List.map_cons, List.map_cons, List.map_cons, List.map_nil,
    List.sum_cons, List.sum_cons, List.sum_cons, List.sum_cons, List.sum_nil]
  ring

theorem partner_getD_matches :
    ∀ (ms : List Match) (st : Stats) (k : String),
      recGetD ((ms.foldl statsAddMatch st).partnerCount) k 0 =
        recGetD st.partnerCount k 0 + ((ms.flatMap teamKeys).count k : Int) := by
  intro ms
  induction ms with
  | nil => intro st k; simp
  | cons mm ms ih =>
    intro st k
    rw [List.foldl_cons, ih, partner_getD_addMatch, List.flatMap_cons,
      List.count_append]
    push_cast
    ring

theorem opp_getD_matches :
    ∀ (ms : List Match) (st : Stats) (k : String),
      recGetD ((ms.foldl statsAddMatch st).opponentCount) k 0 =
        recGetD st.opponentCount k 0 + ((ms.flatMap crossKeys).count k : Int) := by
  intro ms
  induction ms with
  | nil => intro st k; simp
  | cons mm ms ih =>
    intro st k
    rw [List.foldl_cons, ih, opp_getD_addMatch, List.flatMap_cons,
      List.count_append]
    push_cast
    ring

theorem partner_getD_rounds :
    ∀ (rs : List SavedRound) (st : Stats) (k : String),
      recGetD ((rs.foldl (fun st r => r.matches'.foldl statsAddMatch st)
          st).partnerCount) k 0 =
        recGetD st.partnerCount k 0
          + ((rs.flatMap fun r => r.matches'.flatMap teamKeys).count k : Int) := by
  intro rs
  induction rs with
  | nil => intro st k; simp
  | cons r rs ih =>
    intro st k
    rw [List.foldl_cons, ih, partner_getD_matches, List.flatMap_cons,
      List.count_append]
    push_cast
    ring

theorem opp_getD_rounds :
    ∀ (rs : List SavedRound) (st : Stats) (k : String),
      recGetD ((rs.foldl (fun st r => r.matches'.foldl statsAddMatch st)
          st).opponentCount) k 0 =
        recGetD st.opponentCount k 0
          + ((rs.flatMap fun r => r.matches'.flatMap crossKeys).count k : Int) := by
  intro rs
  induction rs with
  | nil => intro st k; simp
  | cons r rs ih =>
    intro st k
    rw [List.foldl_cons, ih, opp_getD_matches, List.flatMap_cons,
      List.count_append]
    push_cast
    ring

theorem partnerOf_computeStats (players : List Player) (rounds : List SavedRound)
    (x y : String) :
    partnerOf (computeStats players rounds) x y =
      (((rounds.flatMap fun r => r.matches'.flatMap teamKeys).count
        (makeKey x y) : Nat) : Int) := by
  show recGetD (computeStats players rounds).partnerCount (makeKey x y) 0 = _
  have h := partner_getD_rounds rounds
    ⟨players.foldl (fun m p => recSet m p.id (some 0)) [], [], []⟩ (makeKey x y)
  rw [show recGetD ([] : Rec Int) (makeKey x y) 0 = 0 from rfl, zero_add] at h
  exact h

theorem oppOf_computeStats (players : List Player) (rounds : List SavedRound)
    (x y : String) :
    oppOf (computeStats players rounds) x y =
      (((rounds.flatMap fun r => r.matches'.flatMap crossKeys).count
        (makeKey x y) : Nat) : Int) := by
  show recGetD (computeStats players rounds).opponentCount (makeKey x y) 0 = _
  have h := opp_getD_rounds rounds
    ⟨players.foldl (fun m p => recSet m p.id (some 0)) [], [], []⟩ (makeKey x y)
  rw [show recGetD ([] : Rec Int) (makeKey x y) 0 = 0 from rfl, zero_add] at h
  exact h

theorem partnerOf_key_congr (st : Stats) {x y u v : String}
    (h : makeKey x y = makeKey u v) : partnerOf st x y = partnerOf st u v := by
  unfold partnerOf
  rw [h]

theorem teamPair_key {t : Player × Player} {x y : String} (h : teamPair t x y) :
    makeKey t.1.id t.2.id = makeKey x y := by
  rcases h with ⟨h1, h2⟩ | ⟨h1, h2⟩
  · rw [h1, h2]
  · rw [h1, h2, makeKey_comm]

theorem matchIds_nodup_of_flat :
    ∀ (ms : List Match), (ms.flatMap matchIds).Nodup → ∀ m ∈ ms, (matchIds m).Nodup := by
  intro ms
  induction ms with
  | nil => intro _ m hm; cases hm
  | cons m0 ms ih =>
    intro h m hm
    rw [List.flatMap_cons] at h
    rcases List.mem_cons.mp hm with rfl | hm
    · exact (List.nodup_append.mp h).1
    · exact ih (List.nodup_append.mp h).2.1 m hm

theorem flat_nodup_unique :
    ∀ (ms : List Match), (ms.flatMap matchIds).Nodup →
      ∀ (x : String), ∀ m1 ∈ ms, ∀ m2 ∈ ms,
        x ∈ matchIds m1 → x ∈ matchIds m2 → m1 = m2 := by
  intro ms
  induction ms with
  | nil => intro _ x m1 hm1; cases hm1
  | cons m0 ms ih =>
    intro h x m1 hm1 m2 hm2 hx1 hx2
    rw [List.flatMap_cons] at h
    have hdisj := (List.nodup_append.mp h).2.2
    rcases List.mem_cons.mp hm1 with h1 | h1
    · rcases List.mem_cons.mp hm2 with h2 | h2
      · rw [h1, h2]
      · exact (hdisj (h1 ▸ hx1) (List.mem_flatMap.mpr ⟨m2, h2, hx2⟩)).elim
    · rcases List.mem_cons.mp hm2 with h2 | h2
      · exact (hdisj (h2 ▸ hx2) (List.mem_flatMap.mpr ⟨m1, h1, hx1⟩)).elim
      · exact ih (List.nodup_append.mp h).2.1 x m1 h1 m2 h2 hx1 hx2

theorem teamKeys_mem_cases {m : Match} {k : String} (h : k ∈ teamKeys m) :
    k = makeKey m.teamA.1.id m.teamA.2.id ∨ k = makeKey m.teamB.1.id m.teamB.2.id := by
  rcases List.mem_cons.mp h with h | h
  · exact Or.inl h
  · rcases List.mem_cons.mp h with h | h
    · exact Or.inr h
    · cases h

theorem crossKeys_mem_cases {m : Match} {k : String} (h : k ∈ crossKeys m) :
    k = makeKey m.teamA.1.id m.teamB.1.id ∨ k = makeKey m.teamA.1.id m.teamB.2.id
    ∨ k = makeKey m.teamA.2.id m.teamB.1.id
    ∨ k = makeKey m.teamA.2.id m.teamB.2.id := by
  rcases List.mem_cons.mp h with h | h
  · exact Or.inl h
  rcases List.mem_cons.mp h with h | h
  · exact Or.inr (Or.inl h)
  rcases List.mem_cons.mp h with h | h
  · exact Or.inr (Or.inr (Or.inl h))
  rcases List.mem_cons.mp h with h | h
  · exact Or.inr (Or.inr (Or.inr h))
  · cases h

theorem makeKey_ne (u v u' v' : String) (hu : usFree u) (hv : usFree v)
    (hu' : usFree u') (hv' : usFree v')
    (h1 : ¬ (u = u' ∧ v = v')) (h2 : ¬ (u = v' ∧ v = u')) :
    makeKey u v ≠ makeKey u' v' := fun he => by
  rcases makeKey_inj hu hv hu' hv' he with h | h
  · exact h1 h
  · exact h2 h

theorem cross_mem_ids (m : Match) (x y : String)
    (hfree : ∀ i ∈ matchIds m, usFree i) (hx : usFree x) (hy : usFree y)
    (h : makeKey x y ∈ crossKeys m) : x ∈ matchIds m := by
  have hin : ∀ u v : String, u ∈ matchIds m → v ∈ matchIds m →
      makeKey u v = makeKey x y → x ∈ matchIds m := by
    intro u v hu hv he
    rcases makeKey_inj (hfree u hu) (hfree v hv) hx hy he with ⟨h1, -⟩ | ⟨-, h2⟩
    · exact h1 ▸ hu
    · exact h2 ▸ hv
  rcases crossKeys_mem_cases h with h | h | h | h <;>
    exact hin _ _ (by simp [matchIds]) (by simp [matchIds]) h.symm

theorem team_mem_ids (m : Match) (x y : String)
    (hfree : ∀ i ∈ matchIds m, usFree i) (hx : usFree x) (hy : usFree y)
    (h : makeKey x y ∈ teamKeys m) : x ∈ matchIds m := by
  have hin : ∀ u v : String, u ∈ matchIds m → v ∈ matchIds m →
      makeKey u v = makeKey x y → x ∈ matchIds m := by
    intro u v hu hv he
    rcases makeKey_inj (hfree u hu) (hfree v hv) hx hy he with ⟨h1, -⟩ | ⟨-, h2⟩
    · exact h1 ▸ hu
    · exact h2 ▸ hv
  rcases teamKeys_mem_cases h with h | h <;>
    exact hin _ _ (by simp [matchIds]) (by simp [matchIds]) h.symm

theorem crossKeys_nodup (m : Match) (hnd : (matchIds m).Nodup)
    (hfree : ∀ i ∈ matchIds m, usFree i) : (crossKeys m).Nodup := by
  have ha1 : usFree m.teamA.1.id := hfree _ (by simp [matchIds])
  have ha2 : usFree m.teamA.2.id := hfree _ (by simp [matchIds])
  have hb1 : usFree m.teamB.1.id := hfree _ (by simp [matchIds])
  have hb2 : usFree m.teamB.2.id := hfree _ (by simp [matchIds])
  simp only [matchIds, List.nodup_cons, List.mem_cons, List.mem_singleton,
    List.not_mem_nil, or_false, List.nodup_nil, and_true] at hnd
  push_neg at hnd
  obtain ⟨⟨h12, h13, h14⟩, ⟨h23, h24⟩, h34, -⟩ := hnd
  refine List.nodup_cons.mpr ⟨?_, List.nodup_cons.mpr ⟨?_,
    List.nodup_cons.mpr ⟨?_, List.nodup_singleton _⟩⟩⟩
  · intro hmem
    rcases List.mem_cons.mp hmem with h | hmem
    · exact makeKey_ne _ _ _ _ ha1 hb1 ha1 hb2
        (fun hc => h34 hc.2) (fun hc => h14 hc.1) h
    rcases List.mem_cons.mp hmem with h | hmem
    · exact makeKey_ne _ _ _ _ ha1 hb1 ha2 hb1
        (fun hc => h12 hc.1) (fun hc => h13 hc.1) h
    rcases List.mem_cons.mp hmem with h | hmem
    · exact makeKey_ne _ _ _ _ ha1 hb1 ha2 hb2
        (fun hc => h12 hc.1) (fun hc => h14 hc.1) h
    · cases hmem
  · intro hmem
    rcases List.mem_cons.mp hmem with h | hmem
    · exact makeKey_ne _ _ _ _ ha1 hb2 ha2 hb1
        (fun hc => h12 hc.1) (fun hc => h13 hc.1) h
    rcases List.mem_cons.mp hmem with h | hmem
    · exact makeKey_ne _ _ _ _ ha1 hb2 ha2 hb2
        (fun hc => h12 hc.1) (fun hc => h14 hc.1) h
    · cases hmem
  · intro hmem
    rcases List.mem_cons.mp hmem with h | hmem
    · exact makeKey_ne _ _ _ _ ha2 hb1 ha2 hb2
        (fun hc => h34 hc.2) (fun hc => h24 hc.1) h
    · cases hmem

/-- In a valid round where `{p1, p2}` is a team, no team key can be
`makeKey p1 x` for a third identifier `x`. -/
theorem partner_key_not_mem
    (ms : List Match) (p1 p2 x : String)
    (hfree : ∀ i ∈ ms.flatMap matchIds, usFree i)
    (hnd : (ms.flatMap matchIds).Nodup)
    (hp1 : usFree p1) (hx : usFree x)
    (hne1 : x ≠ p1) (hne2 : x ≠ p2)
    (hteam : ∃ m ∈ ms, hasTeam m p1 p2) :
    makeKey p1 x ∉ ms.flatMap teamKeys := by
  intro hmem
  obtain ⟨m, hm, hk⟩ := List.mem_flatMap.mp hmem
  obtain ⟨m0, hm0, ht0⟩ := hteam
  have hfm : ∀ i ∈ matchIds m, usFree i :=
    fun i hi => hfree i (List.mem_flatMap.mpr ⟨m, hm, hi⟩)
  have hp1m : p1 ∈ matchIds m := team_mem_ids m p1 x hfm hp1 hx hk
  have hp1m0 : p1 ∈ matchIds m0 := by
    rcases ht0 with h | h <;> rcases h with ⟨h1, h2⟩ | ⟨h1, h2⟩
    · rw [← h1]; simp [matchIds]
    · rw [← h2]; simp [matchIds]
    · rw [← h1]; simp [matchIds]
    · rw [← h2]; simp [matchIds]
  have hmeq : m = m0 := flat_nodup_unique ms hnd p1 m hm m0 hm0 hp1m hp1m0
  subst hmeq
  have hndm : (matchIds m).Nodup := matchIds_nodup_of_flat ms hnd m hm
  simp only [matchIds, List.nodup_cons, List.mem_cons, List.mem_singleton,
    List.not_mem_nil, or_false, List.nodup_nil, and_true] at hndm
  push_neg at hndm
  obtain ⟨⟨h12, h13, h14⟩, ⟨h23, h24⟩, h34, -⟩ := hndm
  have ha1 : usFree m.teamA.1.id := hfm _ (by simp [matchIds])
  have ha2 : usFree m.teamA.2.id := hfm _ (by simp [matchIds])
  have hb1 : usFree m.teamB.1.id := hfm _ (by simp [matchIds])
  have hb2 : usFree m.teamB.2.id := hfm _ (by simp [matchIds])
  rcases teamKeys_mem_cases hk with hkA | hkB
  · -- the key `makeKey p1 x` is team A's key
    have hmA := makeKey_inj ha1 ha2 hp1 hx hkA.symm
    rcases ht0 with htA | htB
    · -- `{p1, p2}` is also team A: forces `x = p2` or `x = p1`
      rcases hmA with ⟨u1, u2⟩ | ⟨u1, u2⟩ <;> rcases htA with ⟨v1, v2⟩ | ⟨v1, v2⟩
      · exact hne2 (u2.symm.trans v2)
      · exact hne1 (u2.symm.trans v2)
      · exact hne1 (u1.symm.trans v1)
      · exact hne2 (u1.symm.trans v1)
    · -- `{p1, p2}` is team B: `p1` occurs in both teams
      rcases hmA with ⟨u1, u2⟩ | ⟨u1, u2⟩ <;> rcases htB with ⟨v1, v2⟩ | ⟨v1, v2⟩
      · exact h13 (u1.trans v1.symm)
      · exact h14 (u1.trans v2.symm)
      · exact h23 (u2.trans v1.symm)
      · exact h24 (u2.trans v2.symm)
  · -- the key `makeKey p1 x` is team B's key
    have hmB := makeKey_inj hb1 hb2 hp1 hx hkB.symm
    rcases ht0 with htA | htB
    · -- `{p1, p2}` is team A: `p1` occurs in both teams
      rcases hmB with ⟨u1, u2⟩ | ⟨u1, u2⟩ <;> rcases htA with ⟨v1, v2⟩ | ⟨v1, v2⟩
      · exact h13 (v1.trans u1.symm)
      · exact h23 (v2.trans u1.symm)
      · exact h14 (v1.trans u2.symm)
      · exact h24 (v2.trans u2.symm)
    · -- `{p1, p2}` is also team B: forces `x = p2` or `x = p1`
      rcases hmB with ⟨u1, u2⟩ | ⟨u1, u2⟩ <;> rcases htB with ⟨v1, v2⟩ | ⟨v1, v2⟩
      · exact hne2 (u2.symm.trans v2)
      · exact hne1 (u2.symm.trans v2)
      · exact hne1 (u1.symm.trans v1)
      · exact hne2 (u1.symm.trans v1)

/-- In a valid round, each pair of identifiers opposes at most once. -/
theorem count_crossKeys_le_one :
    ∀ (ms : List Match) (x y : String),
      (∀ i ∈ ms.flatMap matchIds, usFree i) → (ms.flatMap matchIds).Nodup →
      usFree x → usFree y →
      (ms.flatMap crossKeys).count (makeKey x y) ≤ 1 := by
  intro ms
  induction ms with
  | nil => intro x y _ _ _ _; simp
  | cons m ms ih =>
    intro x y hfree hnd hx hy
    rw [List.flatMap_cons] at hnd
    have hfm : ∀ i ∈ matchIds m, usFree i := fun i hi =>
      hfree i (by rw [List.flatMap_cons]; exact List.mem_append_left _ hi)
    have hftail : ∀ i ∈ ms.flatMap matchIds, usFree i := fun i hi =>
      hfree i (by rw [List.flatMap_cons]; exact List.mem_append_right _ hi)
    have hndm : (matchIds m).Nodup := (List.nodup_append.mp hnd).1
    have hndtail : (ms.flatMap matchIds).Nodup := (List.nodup_append.mp hnd).2.1
    have hdisj := (List.nodup_append.mp hnd).2.2
    rw [List.flatMap_cons, List.count_append]
    by_cases hmem : makeKey x y ∈ crossKeys m
    · have hcm : (crossKeys m).count (makeKey x y) ≤ 1 :=
        List.nodup_iff_count_le_one.mp (crossKeys_nodup m hndm hfm) _
      have hxm : x ∈ matchIds m := cross_mem_ids m x y hfm hx hy hmem
      have htail0 : (ms.flatMap crossKeys).count (makeKey x y) = 0 := by
        rw [List.count_eq_zero]
        intro hc
        obtain ⟨m', hm', hk'⟩ := List.mem_flatMap.mp hc
        have hfm' : ∀ i ∈ matchIds m', usFree i := fun i hi =>
          hftail i (List.mem_flatMap.mpr ⟨m', hm', hi⟩)
        have hxm' : x ∈ matchIds m' := cross_mem_ids m' x y hfm' hx hy hk'
        exact hdisj hxm (List.mem_flatMap.mpr ⟨m', hm', hxm'⟩)
      omega
    · rw [List.count_eq_zero.mpr hmem, Nat.zero_add]
      exact ih x y hftail hndtail hx hy

theorem partnerOf_comm (st : Stats) (x y : String) :
    partnerOf st x y = partnerOf st y x := by
  unfold partnerOf
  rw [makeKey_comm]

theorem oppOf_comm (st : Stats) (x y : String) :
    oppOf st x y = oppOf st y x := by
  unfold oppOf
  rw [makeKey_comm]

theorem matchScore_swap_teams (st : Stats) (a b c d : Player) :
    matchScore st c d a b = matchScore st a b c d := by
  unfold matchScore
  rw [oppOf_comm st c.id a.id, oppOf_comm st c.id b.id, oppOf_comm st d.id a.id,
    oppOf_comm st d.id b.id]
  ring

theorem matchScore_swap_ab (st : Stats) (a b c d : Player) :
    matchScore st b a c d = matchScore st a b c d := by
  unfold matchScore
  rw [partnerOf_comm st b.id a.id]
  ring

theorem matchScore_swap_cd (st : Stats) (a b c d : Player) :
    matchScore st a b d c = matchScore st a b c d := by
  unfold matchScore
  rw [partnerOf_comm st d.id c.id]
  ring

theorem matchScore_le_no_repeat (st : Stats) (a b c d : Player)
    (h1 : partnerOf st a.id b.id = 0) (h2 : partnerOf st c.id d.id = 0)
    (hac : oppOf st a.id c.id ≤ 1) (had : oppOf st a.id d.id ≤ 1)
    (hbc : oppOf st b.id c.id ≤ 1) (hbd : oppOf st b.id d.id ≤ 1) :
    matchScore st a b c d ≤ 48
      - (gpOf st a.id + gpOf st b.id + gpOf st c.id + gpOf st d.id) := by
  unfold matchScore
  linarith

theorem matchScore_ge_repeat (st : Stats) (a b c d : Player)
    (h : 1 ≤ partnerOf st a.id b.id)
    (hcd : 0 ≤ partnerOf st c.id d.id)
    (hac : 0 ≤ oppOf st a.id c.id) (had : 0 ≤ oppOf st a.id d.id)
    (hbc : 0 ≤ oppOf st b.id c.id) (hbd : 0 ≤ oppOf st b.id d.id) :
    56 - (gpOf st a.id + gpOf st b.id + gpOf st c.id + gpOf st d.id)
      ≤ matchScore st a b c d := by
  unfold matchScore
  linarith

/-- A split that keeps the previously-partnered pair `(a,b)` together is
strictly beaten by the split `(a,c)` versus `(b,d)` that separates them. -/
theorem pairing_not_min (st : Stats) (a b c d : Player)
    (hkey : 1 ≤ partnerOf st a.id b.id)
    (hzac : partnerOf st a.id c.id = 0) (hzbd : partnerOf st b.id d.id = 0)
    (hcd0 : 0 ≤ partnerOf st c.id d.id)
    (ho1 : oppOf st a.id b.id ≤ 1) (ho2 : oppOf st a.id d.id ≤ 1)
    (ho3 : oppOf st c.id b.id ≤ 1) (ho4 : oppOf st c.id d.id ≤ 1)
    (hp1 : 0 ≤ oppOf st a.id c.id) (hp2 : 0 ≤ oppOf st a.id d.id)
    (hp3 : 0 ≤ oppOf st b.id c.id) (hp4 : 0 ≤ oppOf st b.id d.id) :
    matchScore st a c b d < matchScore st a b c d := by
  have hle := matchScore_le_no_repeat st a c b d hzac hzbd ho1 ho2 ho3 ho4
  have hge := matchScore_ge_repeat st a b c d hkey hcd0 hp1 hp2 hp3 hp4
  linarith

theorem teamPair_partner_ge (st : Stats) {p1 p2 : String} {a b : Player}
    (hpair : teamPair (a, b) p1 p2) (hp12 : 1 ≤ partnerOf st p1 p2) :
    1 ≤ partnerOf st a.id b.id := by
  rcases hpair with ⟨e1, e2⟩ | ⟨e1, e2⟩
  · rw [e1, e2]; exact hp12
  · rw [e1, e2, partnerOf_comm]; exact hp12

theorem outsider_ne {p1 p2 : String} {a b v : Player}
    (hpair : teamPair (a, b) p1 p2) (hva : v.id ≠ a.id) (hvb : v.id ≠ b.id) :
    v.id ≠ p1 ∧ v.id ≠ p2 := by
  rcases hpair with ⟨e1, e2⟩ | ⟨e1, e2⟩
  · exact ⟨e1 ▸ hva, e2 ▸ hvb⟩
  · exact ⟨e2 ▸ hvb, e1 ▸ hva⟩

theorem insider_mem {p1 p2 : String} {a b : Player}
    (hpair : teamPair (a, b) p1 p2) :
    (a.id = p1 ∨ a.id = p2) ∧ (b.id = p1 ∨ b.id = p2) := by
  rcases hpair with ⟨e1, e2⟩ | ⟨e1, e2⟩
  · exact ⟨Or.inl e1, Or.inr e2⟩
  · exact ⟨Or.inr e1, Or.inl e2⟩

/-- If the four distinct players contain the previously-partnered pair
`{p1, p2}` (all other partner counts in the group zero, opposition counts
between 0 and 1), `bestSplitForFour` never puts `p1` and `p2` on the same
team. -/
theorem bestSplit_no_repeat (st : Stats) (p1 p2 : String) (p q r s : Player)
    (hpq : p.id ≠ q.id) (hpr : p.id ≠ r.id) (hps : p.id ≠ s.id)
    (hqr : q.id ≠ r.id) (hqs : q.id ≠ s.id) (hrs : r.id ≠ s.id)
    (hzero : ∀ u v : Player, u ∈ [p, q, r, s] → v ∈ [p, q, r, s] →
      (u.id = p1 ∨ u.id = p2) → v.id ≠ p1 → v.id ≠ p2 →
      partnerOf st u.id v.id = 0)
    (hppos : ∀ u v : Player, u ∈ [p, q, r, s] → v ∈ [p, q, r, s] →
      0 ≤ partnerOf st u.id v.id)
    (hopos : ∀ u v : Player, u ∈ [p, q, r, s] → v ∈ [p, q, r, s] →
      0 ≤ oppOf st u.id v.id)
    (hople : ∀ u v : Player, u ∈ [p, q, r, s] → v ∈ [p, q, r, s] →
      oppOf st u.id v.id ≤ 1)
    (hp12 : 1 ≤ partnerOf st p1 p2) :
    ¬ teamPair ((bestSplitForFour st p q r s).a, (bestSplitForFour st p q r s).b) p1 p2
    ∧ ¬ teamPair ((bestSplitForFour st p q r s).c, (bestSplitForFour st p q r s).d) p1 p2 := by
  have hmem : bestSplitForFour st p q r s ∈ splitOptions st p q r s := by
    rw [bestSplitForFour_eq]
    exact firstMinAux_mem _ _ _
  have hmin : ∀ o ∈ splitOptions st p q r s,
      (bestSplitForFour st p q r s).score ≤ o.score := by
    rw [bestSplitForFour_eq]
    intro o ho
    exact firstMinAux_le SplitOption.score _ _ o ho
  have hmem1 : (⟨p, q, r, s, matchScore st p q r s⟩ : SplitOption)
      ∈ splitOptions st p q r s := List.mem_cons_self _ _
  have hmem2 : (⟨p, r, q, s, matchScore st p r q s⟩ : SplitOption)
      ∈ splitOptions st p q r s :=
    List.mem_cons_of_mem _ (List.mem_cons_self _ _)
  unfold splitOptions at hmem
  rcases List.mem_cons.mp hmem with heq | hmem
  · rw [heq]
    show ¬ teamPair (p, q) p1 p2 ∧ ¬ teamPair (r, s) p1 p2
    constructor
    · intro hcontra
      have hins := insider_mem hcontra
      have hw := outsider_ne hcontra (Ne.symm hpr) (Ne.symm hqr)
      have hx := outsider_ne hcontra (Ne.symm hps) (Ne.symm hqs)
      have hlt := pairing_not_min st p q r s
        (teamPair_partner_ge st hcontra hp12)
        (hzero p r (by simp) (by simp) hins.1 hw.1 hw.2)
        (hzero q s (by simp) (by simp) hins.2 hx.1 hx.2)
        (hppos r s (by simp) (by simp))
        (hople p q (by simp) (by simp)) (hople p s (by simp) (by simp))
        (hople r q (by simp) (by simp)) (hople r s (by simp) (by simp))
        (hopos p r (by simp) (by simp)) (hopos p s (by simp) (by simp))
        (hopos q r (by simp) (by simp)) (hopos q s (by simp) (by simp))
      have h2 := hmin _ hmem2
      rw [heq] at h2
      have h2' : matchScore st p q r s ≤ matchScore st p r q s := h2
      exact absurd h2' (not_le.mpr hlt)
    · intro hcontra
      have hins := insider_mem hcontra
      have hw := outsider_ne hcontra hpr hps
      have hx := outsider_ne hcontra hqr hqs
      have hlt := pairing_not_min st r s p q
        (teamPair_partner_ge st hcontra hp12)
        (hzero r p (by simp) (by simp) hins.1 hw.1 hw.2)
        (hzero s q (by simp) (by simp) hins.2 hx.1 hx.2)
        (hppos p q (by simp) (by simp))
        (hople r s (by simp) (by simp)) (hople r q (by simp) (by simp))
        (hople p s (by simp) (by simp)) (hople p q (by simp) (by simp))
        (hopos r p (by simp) (by simp)) (hopos r q (by simp) (by simp))
        (hopos s p (by simp) (by simp)) (hopos s q (by simp) (by simp))
      rw [matchScore_swap_ab st p r s q, matchScore_swap_cd st p r q s,
        matchScore_swap_teams st p q r s] at hlt
      have h2 := hmin _ hmem2
      rw [heq] at h2
      have h2' : matchScore st p q r s ≤ matchScore st p r q s := h2
      exact absurd h2' (not_le.mpr hlt)
  rcases List.mem_cons.mp hmem with heq | hmem
  · rw [heq]
    show ¬ teamPair (p, r) p1 p2 ∧ ¬ teamPair (q, s) p1 p2
    constructor
    · intro hcontra
      have hins := insider_mem hcontra
      have hw := outsider_ne hcontra (Ne.symm hpq) hqr
      have hx := outsider_ne hcontra (Ne.symm hps) (Ne.symm hrs)
      have hlt := pairing_not_min st p r q s
        (teamPair_partner_ge st hcontra hp12)
        (hzero p q (by simp) (by simp) hins.1 hw.1 hw.2)
        (hzero r s (by simp) (by simp) hins.2 hx.1 hx.2)
        (hppos q s (by simp) (by simp))
        (hople p r (by simp) (by simp)) (hople p s (by simp) (by simp))
        (hople q r (by simp) (by simp)) (hople q s (by simp) (by simp))
        (hopos p q (by simp) (by simp)) (hopos p s (by simp) (by simp))
        (hopos r q (by simp) (by simp)) (hopos r s (by simp) (by simp))
      have h1 := hmin _ hmem1
      rw [heq] at h1
      have h1' : matchScore st p r q s ≤ matchScore st p q r s := h1
      exact absurd h1' (not_le.mpr hlt)
    · intro hcontra
      have hins := insider_mem hcontra
      have hw := outsider_ne hcontra hpq hps
      have hx := outsider_ne hcontra (Ne.symm hqr) hrs
      have hlt := pairing_not_min st q s p r
        (teamPair_partner_ge st hcontra hp12)
        (hzero q p (by simp) (by simp) hins.1 hw.1 hw.2)
        (hzero s r (by simp) (by simp) hins.2 hx.1 hx.2)
        (hppos p r (by simp) (by simp))
        (hople q s (by simp) (by simp)) (hople q r (by simp) (by simp))
        (hople p s (by simp) (by simp)) (hople p r (by simp) (by simp))
        (hopos q p (by simp) (by simp)) (hopos q r (by simp) (by simp))
        (hopos s p (by simp) (by simp)) (hopos s r (by simp) (by simp))
      rw [matchScore_swap_ab st p q s r, matchScore_swap_cd st p q r s,
        matchScore_swap_teams st p r q s] at hlt
      have h1 := hmin _ hmem1
      rw [heq] at h1
      have h1' : matchScore st p r q s ≤ matchScore st p q r s := h1
      exact absurd h1' (not_le.mpr hlt)
  rcases List.mem_cons.mp hmem with heq | hmem
  · rw [heq]
    show ¬ teamPair (p, s) p1 p2 ∧ ¬ teamPair (q, r) p1 p2
    constructor
    · intro hcontra
      have hins := insider_mem hcontra
      have hw := outsider_ne hcontra (Ne.symm hpq) hqs
      have hx := outsider_ne hcontra (Ne.symm hpr) hrs
      have hlt := pairing_not_min st p s q r
        (teamPair_partner_ge st hcontra hp12)
        (hzero p q (by simp) (by simp) hins.1 hw.1 hw.2)
        (hzero s r (by simp) (by simp) hins.2 hx.1 hx.2)
        (hppos q r (by simp) (by simp))
        (hople p s (by simp) (by simp)) (hople p r (by simp) (by simp))
        (hople q s (by simp) (by simp)) (hople q r (by simp) (by simp))
        (hopos p q (by simp) (by simp)) (hopos p r (by simp) (by simp))
        (hopos s q (by simp) (by simp)) (hopos s r (by simp) (by simp))
      rw [matchScore_swap_cd st p q r s] at hlt
      have h1 := hmin _ hmem1
      rw [heq] at h1
      have h1' : matchScore st p s q r ≤ matchScore st p q r s := h1
      exact absurd h1' (not_le.mpr hlt)
    · intro hcontra
      have hins := insider_mem hcontra
      have hw := outsider_ne hcontra hpq hpr
      have hx := outsider_ne hcontra (Ne.symm hqs) (Ne.symm hrs)
      have hlt := pairing_not_min st q r p s
        (teamPair_partner_ge st hcontra hp12)
        (hzero q p (by simp) (by simp) hins.1 hw.1 hw.2)
        (hzero r s (by simp) (by simp) hins.2 hx.1 hx.2)
        (hppos p s (by simp) (by simp))
        (hople q r (by simp) (by simp)) (hople q s (by simp) (by simp))
        (hople p r (by simp) (by simp)) (hople p s (by simp) (by simp))
        (hopos q p (by simp) (by simp)) (hopos q s (by simp) (by simp))
        (hopos r p (by simp) (by simp)) (hopos r s (by simp) (by simp))
      rw [matchScore_swap_ab st p q r s, matchScore_swap_teams st p s q r] at hlt
      have h1 := hmin _ hmem1
      rw [heq] at h1
      have h1' : matchScore st p s q r ≤ matchScore st p q r s := h1
      exact absurd h1' (not_le.mpr hlt)
  simp at hmem

/-- Every match emitted by the court loop is the best split of some
four-player subsequence of the pool. -/
theorem genLoop_match_origin (st : Stats) :
    ∀ (fuel court : Nat) (rem : List Player),
      ∀ m ∈ genLoop st court fuel rem,
        ∃ p q r s : Player, List.Sublist [p, q, r, s] rem ∧
          m.teamA = ((bestSplitForFour st p q r s).a, (bestSplitForFour st p q r s).b) ∧
          m.teamB = ((bestSplitForFour st p q r s).c, (bestSplitForFour st p q r s).d) := by
  intro fuel
  induction fuel with
  | zero =>
    intro court rem m hm
    rw [genLoop_zero] at hm
    cases hm
  | succ fuel ih =>
    intro court rem m hm
    rw [genLoop_succ] at hm
    split_ifs at hm with h4
    · cases hm
    · cases hbc : chooseBest st rem with
      | none =>
        rw [hbc] at hm
        dsimp only at hm
        cases hm
      | some best =>
        rw [hbc] at hm
        dsimp only at hm
        rcases List.mem_cons.mp hm with heq | hm2
        · obtain ⟨g, hg, hev⟩ := chooseBest_mem st rem best hbc
          have hsub := combs4_sublist rem g.1 g.2.1 g.2.2.1 g.2.2.2 hg
          refine ⟨g.1, g.2.1, g.2.2.1, g.2.2.2, hsub, ?_, ?_⟩
          · rw [heq, ← hev]; rfl
          · rw [heq, ← hev]; rfl
        · obtain ⟨p, q, r, s, hsub, h1, h2⟩ := ih (court + 1) _ m hm2
          exact ⟨p, q, r, s, hsub.trans (List.filter_sublist rem), h1, h2⟩

theorem teamPair_symm {t : Player × Player} {x y : String}
    (h : teamPair t x y) : teamPair t y x := by
  rcases h with ⟨h1, h2⟩ | ⟨h1, h2⟩
  · exact Or.inr ⟨h1, h2⟩
  · exact Or.inl ⟨h1, h2⟩

theorem hasTeam_symm {m : Match} {x y : String}
    (h : hasTeam m x y) : hasTeam m y x := by
  rcases h with h | h
  · exact Or.inl (teamPair_symm h)
  · exact Or.inr (teamPair_symm h)

theorem hasTeam_key_mem (m : Match) (x y : String) (h : hasTeam m x y) :
    makeKey x y ∈ teamKeys m := by
  rcases h with h | h <;> rcases h with ⟨h1, h2⟩ | ⟨h1, h2⟩
  · rw [← h1, ← h2]
    exact List.mem_cons_self _ _
  · rw [← h1, ← h2, makeKey_comm]
    exact List.mem_cons_self _ _
  · rw [← h1, ← h2]
    exact List.mem_cons_of_mem _ (List.mem_cons_self _ _)
  · rw [← h1, ← h2, makeKey_comm]
    exact List.mem_cons_of_mem _ (List.mem_cons_self _ _)

/-- C3: with a roster of 8 distinct players and a history of exactly one
saved round in which `P1` and `P2` were partnered, `generateFairRound`
(under any tie-break shuffle) never re-pairs `P1` with `P2`.  The round is
a genuine round (each player occurs at most once, all of its players are
roster members) and identifiers are separator-free as the spec requires. -/
theorem claim3_no_partner_repeat
    (players : List Player) (wanted : Int) (rnd : SavedRound)
    (shuffled : List Player) (P1 P2 : Player)
    (hlen : players.length = 8)
    (hnd : (players.map Player.id).Nodup)
    (hfree : ∀ p ∈ players, usFree p.id)
    (hperm : shuffled.Perm players)
    (hsubr : ∀ i ∈ rnd.matches'.flatMap matchIds, i ∈ players.map Player.id)
    (hrndnd : (rnd.matches'.flatMap matchIds).Nodup)
    (hP1 : P1 ∈ players) (hP2 : P2 ∈ players) (hne : P1.id ≠ P2.id)
    (hpartner : ∃ m ∈ rnd.matches', hasTeam m P1.id P2.id) :
    ∀ m ∈ (generateFairRound players wanted [rnd] shuffled).matches',
      ¬ hasTeam m P1.id P2.id := by
  intro m hm
  have hm' : m ∈ genLoop (computeStats players [rnd]) 1 (usedCourts players wanted)
      ((sortByGames (computeStats players [rnd]) shuffled).take
        (usedCourts players wanted * 4)) := hm
  obtain ⟨p, q, r, s, hsub4, hA, hB⟩ :=
    genLoop_match_origin (computeStats players [rnd])
      (usedCourts players wanted) 1 _ m hm'
  have hpoolsub := List.take_sublist (usedCourts players wanted * 4)
    (sortByGames (computeStats players [rnd]) shuffled)
  have hpoolperm : (sortByGames (computeStats players [rnd]) shuffled).Perm players :=
    (List.perm_insertionSort _ shuffled).trans hperm
  have hsubP : List.Sublist [p, q, r, s]
      (sortByGames (computeStats players [rnd]) shuffled) := hsub4.trans hpoolsub
  have hmem4 : ∀ u ∈ [p, q, r, s], u ∈ players := fun u hu =>
    hpoolperm.mem_iff.mp (hsubP.subset hu)
  have hndpool : ((sortByGames (computeStats players [rnd]) shuffled).map
      Player.id).Nodup := (hpoolperm.map Player.id).nodup_iff.mpr hnd
  have hnd4 : ([p, q, r, s].map Player.id).Nodup :=
    List.Nodup.sublist (hsubP.map Player.id) hndpool
  simp only [List.map_cons, List.map_nil, List.nodup_cons, List.mem_cons,
    List.mem_singleton, List.not_mem_nil, or_false, List.nodup_nil, and_true] at hnd4
  push_neg at hnd4
  obtain ⟨⟨hpq, hpr, hps⟩, ⟨hqr, hqs⟩, hrs, -⟩ := hnd4
  have hTK : ∀ x y : String, partnerOf (computeStats players [rnd]) x y =
      (((rnd.matches'.flatMap teamKeys).count (makeKey x y) : Nat) : Int) := by
    intro x y
    rw [partnerOf_computeStats]
    simp
  have hCK : ∀ x y : String, oppOf (computeStats players [rnd]) x y =
      (((rnd.matches'.flatMap crossKeys).count (makeKey x y) : Nat) : Int) := by
    intro x y
    rw [oppOf_computeStats]
    simp
  have hfreeflat : ∀ i ∈ rnd.matches'.flatMap matchIds, usFree i := by
    intro i hi
    obtain ⟨pl, hpl, hplid⟩ := List.mem_map.mp (hsubr i hi)
    exact hplid ▸ hfree pl hpl
  have hzero : ∀ u v : Player, u ∈ [p, q, r, s] → v ∈ [p, q, r, s] →
      (u.id = P1.id ∨ u.id = P2.id) → v.id ≠ P1.id → v.id ≠ P2.id →
      partnerOf (computeStats players [rnd]) u.id v.id = 0 := by
    intro u v hu hv hins hv1 hv2
    rw [hTK]
    have hnotmem : makeKey u.id v.id ∉ rnd.matches'.flatMap teamKeys := by
      rcases hins with h | h
      · rw [h]
        exact partner_key_not_mem rnd.matches' P1.id P2.id v.id hfreeflat hrndnd
          (hfree P1 hP1) (hfree v (hmem4 v hv)) hv1 hv2 hpartner
      · rw [h]
        exact partner_key_not_mem rnd.matches' P2.id P1.id v.id hfreeflat hrndnd
          (hfree P2 hP2) (hfree v (hmem4 v hv)) hv2 hv1
          (hpartner.imp fun m0 h0 => ⟨h0.1, hasTeam_symm h0.2⟩)
    rw [List.count_eq_zero_of_not_mem hnotmem]
    rfl
  have hppos : ∀ u v : Player, u ∈ [p, q, r, s] → v ∈ [p, q, r, s] →
      0 ≤ partnerOf (computeStats players [rnd]) u.id v.id := by
    intro u v _ _
    rw [hTK]
    exact Int.natCast_nonneg _
  have hopos : ∀ u v : Player, u ∈ [p, q, r, s] → v ∈ [p, q, r, s] →
      0 ≤ oppOf (computeStats players [rnd]) u.id v.id := by
    intro u v _ _
    rw [hCK]
    exact Int.natCast_nonneg _
  have hople : ∀ u v : Player, u ∈ [p, q, r, s] → v ∈ [p, q, r, s] →
      oppOf (computeStats players [rnd]) u.id v.id ≤ 1 := by
    intro u v hu hv
    rw [hCK]
    have h := count_crossKeys_le_one rnd.matches' u.id v.id hfreeflat hrndnd
      (hfree u (hmem4 u hu)) (hfree v (hmem4 v hv))
    exact_mod_cast h
  have hp12 : 1 ≤ partnerOf (computeStats players [rnd]) P1.id P2.id := by
    rw [hTK]
    obtain ⟨m0, hm0, ht0⟩ := hpartner
    have hmemk : makeKey P1.id P2.id ∈ rnd.matches'.flatMap teamKeys :=
      List.mem_flatMap.mpr ⟨m0, hm0, hasTeam_key_mem m0 _ _ ht0⟩
    have hcount : 0 < (rnd.matches'.flatMap teamKeys).count (makeKey P1.id P2.id) :=
      List.count_pos_iff.mpr hmemk
    exact_mod_cast hcount
  have hbs := bestSplit_no_repeat (computeStats players [rnd]) P1.id P2.id p q r s
    hpq hpr hps hqr hqs hrs hzero hppos hopos hople hp12
  intro hteam
  rcases hteam with h | h
  · rw [hA] at h
    exact hbs.1 h
  · rw [hB] at h
    exact hbs.2 h

theorem claim3_no_partner_repeat_witness :
    c3Players.length = 8
    ∧ (c3Players.map Player.id).Nodup
    ∧ (∀ p ∈ c3Players, usFree p.id)
    ∧ c3Players.Perm c3Players
    ∧ (∀ i ∈ c3Round.matches'.flatMap matchIds, i ∈ c3Players.map Player.id)
    ∧ (c3Round.matches'.flatMap matchIds).Nodup
    ∧ (⟨"a", "a"⟩ : Player) ∈ c3Players
    ∧ (⟨"b", "b"⟩ : Player) ∈ c3Players
    ∧ ("a" : String) ≠ "b"
    ∧ (∃ m ∈ c3Round.matches', hasTeam m "a" "b")
    ∧ ∀ m ∈ (generateFairRound c3Players 2 [c3Round] c3Players).matches',
        ¬ hasTeam m "a" "b" :=
  ⟨by decide, by decide, by decide, List.Perm.refl _, by decide, by decide,
   by decide, by decide, by decide, by decide,
   claim3_no_partner_repeat c3Players 2 c3Round c3Players ⟨"a", "a"⟩ ⟨"b", "b"⟩
     (by decide) (by decide) (by decide) (List.Perm.refl _) (by decide)
     (by decide) (by decide) (by decide) (by decide) (by decide)⟩

end Americano
